import Mathlib

/-!
Shallow embedding of `enforce/nodes.py`: the node tree and its recursive
validate / map / reduce algorithm (`BaseNode.validate`, `SimpleNode`,
`UnionNode`, `TypeVarNode`, `TupleNode`, `CallableNode`).

Modelling conventions:
* Python runtime values are modelled by `PyVal`; Python classes that occur in
  the claims by `PyClass`.  `issubclass` is the restriction of Python's
  subclass relation to the modelled classes (the only proper subclass pair
  among them is `bool <: int`).
* Node objects are modelled as immutable trees; in-place mutation becomes
  explicit state passing: `validate` returns the updated node next to the
  boolean.  In the source, `children` and `original_children` alias the same
  child objects; in this value-level embedding `original_children` holds the
  construction-time snapshot of each child, so `Node.reset` on a node restores
  its subtree to its construction state — it corresponds to the source's
  per-object `reset` applied to every node of that subtree.
* Exceptions (`IndexError` from `propagated_data[i]`, `KeyError` from
  `func_hints['return']`) are modelled with `Except PyErr`.
* The generator/driver suspension protocol of the source
  (`result = yield child.validate(...)`) always runs the child to completion
  and resumes the parent with its boolean, so it is modelled as a direct
  recursive call.  The recursion is implemented with an explicit fuel
  parameter (`validateF`) so that every definition is executable and
  kernel-reducible; `Node.validate` supplies fuel `Node.depth n`, which is
  proved sufficient (`validateF_fuel_sufficient`), so `Node.validate` agrees
  with the unbounded recursion of the source.
-/

/-- Python classes occurring in the claims (runtime types of data values). -/
inductive PyClass where
  | intC
  | strC
  | boolC
  | noneC
  | listC
  | tupleC
  | typeC
  | funcC
deriving DecidableEq, Repr

/-- Python runtime values.  `vtype` is a class used as a data value (the
source's `isinstance(data, type)` branch); `vfunc` is a callable carrying its
`typing.get_type_hints` dictionary as an ordered association list. -/
inductive PyVal where
  | vint (n : Int)
  | vstr (s : String)
  | vbool (b : Bool)
  | vnone
  | vlist (xs : List PyVal)
  | vtuple (xs : List PyVal)
  | vtype (c : PyClass)
  | vfunc (hints : List (String × PyClass))

/-- The runtime class of a value: Python's `type(data)`. -/
def PyVal.typeOf : PyVal → PyClass
  | .vint _ => .intC
  | .vstr _ => .strC
  | .vbool _ => .boolC
  | .vnone => .noneC
  | .vlist _ => .listC
  | .vtuple _ => .tupleC
  | .vtype _ => .typeC
  | .vfunc _ => .funcC

/-- Python's `isinstance(data, type)`: is the value itself a class object? -/
def PyVal.isType : PyVal → Bool
  | .vtype _ => true
  | _ => false

/-- Python's `data is None`. -/
def PyVal.isNone : PyVal → Bool
  | .vnone => true
  | _ => false

/-- Python's `issubclass` restricted to the modelled classes: reflexive, and
`bool` is a subclass of `int`. -/
def issubclass (a b : PyClass) : Bool :=
  a = b || (a = .boolC && b = .intC)

/-- Python's `isinstance(data, typing.Callable)`: functions and class objects
are callable, other modelled values are not. -/
def PyVal.isCallable : PyVal → Bool
  | .vfunc _ => true
  | .vtype _ => true
  | _ => false

/-- Python's `typing.get_type_hints(data)` for the callable values of the
model: a function carries its hints, a class object has no relevant hints. -/
def PyVal.hintsOf : PyVal → List (String × PyClass)
  | .vfunc h => h
  | _ => []

/-- Exceptions the algorithm can raise.  `fuelOut` is the out-of-fuel marker
of the bounded recursion; `Node.validate` always supplies sufficient fuel, so
it never surfaces from `Node.validate`. -/
inductive PyErr where
  | indexError
  | keyError
  | fuelOut
deriving DecidableEq, Repr

/-- The five node variants.  `simple dt` is `SimpleNode(dt)`; the remaining
variants fix their `data_type` in `__init__` (`typing.Any`, `typing.Any`,
`typing.Tuple`, `typing.Callable`) so it needs no field here. -/
inductive NodeKind where
  | simple (dt : PyClass)
  | union
  | typeVar
  | tuple
  | callable
deriving DecidableEq, Repr

/-- A node object: variant tag plus the mutable state of `BaseNode.__init__`
(`data_out`, `last_type`, `original_children`, `children`).  `data_out` is
initialised to Python `None` (`PyVal.vnone`) — the source uses the domain's
own `None`, not a dedicated sentinel. -/
inductive Node where
  | mk (kind : NodeKind) (dataOut : PyVal) (lastType : Option PyClass)
       (origChildren : List Node) (children : List Node)

/-- The variant tag of a node. -/
def Node.kind : Node → NodeKind
  | .mk k _ _ _ _ => k

/-- The node's `data_out` field. -/
def Node.dataOut : Node → PyVal
  | .mk _ d _ _ _ => d

/-- The node's `last_type` field. -/
def Node.lastType : Node → Option PyClass
  | .mk _ _ l _ _ => l

/-- The node's `original_children` field. -/
def Node.origChildren : Node → List Node
  | .mk _ _ _ oc _ => oc

/-- The node's `children` field. -/
def Node.children : Node → List Node
  | .mk _ _ _ _ ch => ch

/-- The `strict` flag set by each variant's `__init__`. -/
def strictFlag : NodeKind → Bool
  | .simple _ => true
  | .union => false
  | .typeVar => false
  | .tuple => true
  | .callable => true

/-- The `type_var` flag set by each variant's `__init__`. -/
def typeVarFlag : NodeKind → Bool
  | .typeVar => true
  | _ => false

/-- `SimpleNode(data_type)` freshly constructed. -/
def mkSimple (dt : PyClass) : Node := .mk (.simple dt) .vnone none [] []

/-- `UnionNode()` freshly constructed. -/
def mkUnion : Node := .mk .union .vnone none [] []

/-- `TypeVarNode()` freshly constructed. -/
def mkTypeVar : Node := .mk .typeVar .vnone none [] []

/-- `TupleNode()` freshly constructed. -/
def mkTuple : Node := .mk .tuple .vnone none [] []

/-- `CallableNode()` freshly constructed. -/
def mkCallable : Node := .mk .callable .vnone none [] []

/-- `BaseNode.add_child`: append to both `children` and `original_children`. -/
def addChild : Node → Node → Node
  | .mk k d l oc ch, c => .mk k d l (oc ++ [c]) (ch ++ [c])

/-- `BaseNode.reset`: clear `data_out` and `last_type`, restore `children`
from `original_children`. -/
def Node.reset : Node → Node
  | .mk k _ _ oc _ => .mk k .vnone none oc oc

/-- The variants' `validate_data` hooks (the `sticky` parameter is the
`force` argument of `validate`):
`SimpleNode` checks `issubclass` of the data's class (or of the data itself
when it is a class object); `UnionNode` enforces `last_type` consistency when
sticky; `TypeVarNode` always accepts; `TupleNode` requires a tuple of length
`len(children)`; `CallableNode` requires a callable. -/
def validateData (k : NodeKind) (lastType : Option PyClass)
    (children : List Node) (data : PyVal) (sticky : Bool) : Bool :=
  match k with
  | .simple dt =>
      match data with
      | .vtype c => issubclass c dt
      | _ => issubclass data.typeOf dt
  | .union =>
      match lastType with
      | some t => if sticky then data.typeOf = t else true
      | none => true
  | .typeVar => true
  | .tuple =>
      match data with
      | .vtuple xs => xs.length = children.length
      | _ => false
  | .callable => data.isCallable

/-- Concatenation of `k` copies of a list: Python's `lst * k`. -/
def listMul (l : List α) : Nat → List α
  | 0 => []
  | k + 1 => l ++ listMul l k

/-- The variants' `map_data` hooks.  Returns the propagated data together
with the (possibly mutated) `children` list:
`SimpleNode` on a list multiplies `children` by the list's length and
propagates the elements; `UnionNode` replicates the data once per child;
`TypeVarNode` wraps the data in a singleton; `TupleNode` propagates the
tuple's elements; `CallableNode` collects the non-`return` hint values and
appends the `return` hint, raising `KeyError` when it is missing.
The `tuple`/`callable` fall-through cases are unreachable: `validate` calls
`map_data` only after the variant's `validate_data` accepted the data. -/
def mapData (k : NodeKind) (children : List Node) (data : PyVal) :
    Except PyErr (List PyVal × List Node) :=
  match k with
  | .simple _ =>
      match data with
      | .vlist xs => .ok (xs, listMul children xs.length)
      | _ => .ok ([], children)
  | .union => .ok (children.map (fun _ => data), children)
  | .typeVar => .ok ([data], children)
  | .tuple =>
      match data with
      | .vtuple xs => .ok (xs, children)
      | _ => .ok ([], children)
  | .callable =>
      match data.hintsOf.lookup "return" with
      | none => .error .keyError
      | some r =>
          .ok ((data.hintsOf.filter (fun p => p.1 ≠ "return")).map
                 (fun p => .vtype p.2) ++ [.vtype r],
               children)

/-- The variants' `reduce_data` hooks, applied to
`[a.data_out for a in self.children]` and the original data:
`SimpleNode`/`CallableNode` pass the original data through; `UnionNode`
returns the first child output that is not `None` (Python's
`element is not None` — the source uses the domain's `None` itself as the
absent marker); `TypeVarNode` returns `data[0]` (an `IndexError` when empty,
which is unreachable because an empty `results` list never aggregates to true
for a non-strict node); `TupleNode` rebuilds a tuple. -/
def reduceData (k : NodeKind) (returned : List PyVal) (old : PyVal) :
    Except PyErr PyVal :=
  match k with
  | .simple _ => .ok old
  | .union =>
      match returned.find? (fun e => !e.isNone) with
      | some e => .ok e
      | none => .ok .vnone
  | .typeVar =>
      match returned with
      | [] => .error .indexError
      | x :: _ => .ok x
  | .tuple => .ok (.vtuple returned)
  | .callable => .ok old

/-- Python's `results.index(True)`: index of the first `true` (the length
when absent; the source would raise `ValueError`, unreachable because the
index is only taken when the aggregate succeeded on a non-empty list). -/
def indexOfTrue : List Bool → Nat
  | [] => 0
  | true :: _ => 0
  | false :: bs => indexOfTrue bs + 1

/-- The child-recursion loop of `BaseNode.validate`:
`for i, child in enumerate(self.children): result = yield
child.validate(propagated_data[i], ...)`.  Children beyond the length of
`propagated_data` raise `IndexError`; propagated data beyond the number of
children is silently ignored (the loop runs over `children`).  Returns the
updated children next to the collected boolean results, in child order. -/
def runChildren (vf : Node → PyVal → Except PyErr (Bool × Node)) :
    List Node → List PyVal → Except PyErr (List Node × List Bool)
  | [], _ => .ok ([], [])
  | _ :: _, [] => .error .indexError
  | c :: cs, d :: ds =>
      match vf c d with
      | .error e => .error e
      | .ok (b, c') =>
          match runChildren vf cs ds with
          | .error e => .error e
          | .ok (cs', bs) => .ok (c' :: cs', b :: bs)

/-- The aggregation step of `BaseNode.validate`:
`all(results) if self.strict else any(results)`. -/
def aggregateResults (k : NodeKind) (results : List Bool) : Bool :=
  if strictFlag k then results.all id else results.any id

/-- The commit/prune step of `BaseNode.validate`:
`if results and force: self.children = [self.children[results.index(True)]]`
(the `none` fallback is unreachable — when the aggregate succeeded on a
non-empty `results` the index of the first `true` is in range). -/
def pruneChildren (force : Bool) (results : List Bool) (ch2 : List Node) :
    List Node :=
  if force && !results.isEmpty then
    match ch2.get? (indexOfTrue results) with
    | some c => [c]
    | none => []
  else ch2

/-- One step of `BaseNode.validate`, parameterised by the recursive validator
used for the children (which receives the parent's `type_var` flag as its
`force` argument).  Follows the source line by line: type-check, map, child
recursion, aggregation (`all` when strict else `any`), reduce into
`data_out`, prune `children` to `[children[results.index(True)]]` when
`results and force`, record `last_type`. -/
def validateStep (vf : Node → PyVal → Bool → Except PyErr (Bool × Node))
    (n : Node) (data : PyVal) (force : Bool) : Except PyErr (Bool × Node) :=
  match n with
  | .mk k dout lt oc ch =>
      if validateData k lt ch data force then
        Except.bind (mapData k ch data) (fun pc =>
          Except.bind
            (runChildren (fun c d => vf c d (typeVarFlag k)) pc.2 pc.1)
            (fun cr =>
              if aggregateResults k cr.2 then
                Except.bind (reduceData k (cr.1.map Node.dataOut) data)
                  (fun out =>
                    .ok (true, .mk k out (some data.typeOf) oc
                          (pruneChildren force cr.2 cr.1)))
              else
                .ok (false, .mk k dout lt oc cr.1)))
      else
        .ok (false, .mk k dout lt oc ch)

/-- Fuel-bounded form of the recursive `validate`. -/
def validateF : Nat → Node → PyVal → Bool → Except PyErr (Bool × Node)
  | 0, _, _, _ => .error .fuelOut
  | fuel + 1, n, data, force =>
      validateStep (fun c d tv => validateF fuel c d tv) n data force

mutual

/-- Height of a node tree (fuel needed to run `validate` on it). -/
def Node.depth : Node → Nat
  | .mk _ _ _ _ ch => Node.depthList ch + 1

/-- Maximum height of a list of node trees. -/
def Node.depthList : List Node → Nat
  | [] => 0
  | c :: cs => max (Node.depth c) (Node.depthList cs)

end

/-- `BaseNode.validate(data, validator, force)` run to completion by the
driver: returns the final boolean together with the updated node. -/
def Node.validate (n : Node) (data : PyVal) (force : Bool) :
    Except PyErr (Bool × Node) :=
  validateF n.depth n data force

/-! ### Nodes and predicates used by the claim theorems -/

/-- The sequence-expansion node of C7: a `SimpleNode(list)` with a single
`SimpleNode(int)` child, as the tree-builder creates for `List[int]`. -/
def c7node : Node := addChild (mkSimple .listC) (mkSimple .intC)

/-- The state of `SimpleNode(int)` after successfully validating `5`. -/
def c6n1 : Node := .mk (.simple .intC) (.vint 5) (some .intC) [] []

/-- The union node of C4: `UnionNode` with a `SimpleNode(NoneType)` branch
followed by a `SimpleNode(int)` branch. -/
def c4node : Node := addChild (addChild mkUnion (mkSimple .noneC)) (mkSimple .intC)

/-- The state of `c4node` after successfully validating `5`. -/
def c4mid : Node := .mk .union (.vint 5) (some .intC)
  [.mk (.simple .noneC) .vnone none [] [], .mk (.simple .intC) .vnone none [] []]
  [.mk (.simple .noneC) .vnone none [] [],
   .mk (.simple .intC) (.vint 5) (some .intC) [] []]

/-- The state of `c4mid` after validating Python `None`. -/
def c4fin : Node := .mk .union (.vint 5) (some .noneC)
  [.mk (.simple .noneC) .vnone none [] [], .mk (.simple .intC) .vnone none [] []]
  [.mk (.simple .noneC) .vnone (some .noneC) [] [],
   .mk (.simple .intC) (.vint 5) (some .intC) [] []]

/-- The two-branch union wrapped by the C1 type variable. -/
def c1union (A B : PyClass) : Node :=
  .mk .union .vnone none [mkSimple A, mkSimple B] [mkSimple A, mkSimple B]

/-- The C1 tree: a `TypeVarNode` wrapping a `UnionNode` with a
`SimpleNode(A)` branch and a `SimpleNode(B)` branch. -/
def c1tree (A B : PyClass) : Node :=
  .mk .typeVar .vnone none [c1union A B] [c1union A B]

/-- A childless `SimpleNode(dt)` in an arbitrary mutable state. -/
def childlessSimple (dt : PyClass) (c : Node) : Prop :=
  ∃ o l, c = .mk (.simple dt) o l [] []

/-- The C10 node: a `SimpleNode(list)` whose `checkType` accepts lists,
carrying exactly one template child `SimpleNode(dt2)`. -/
def c10node (dt2 : PyClass) : Node :=
  .mk (.simple .listC) .vnone none [mkSimple dt2] [mkSimple dt2]

/-- The state of `c10node int` after successfully validating `[1, 2]`. -/
def c10after : Node :=
  .mk (.simple .listC) (.vlist [.vint 1, .vint 2]) (some .listC)
    [mkSimple .intC]
    [.mk (.simple .intC) (.vint 1) (some .intC) [] [],
     .mk (.simple .intC) (.vint 2) (some .intC) [] []]

mutual

/-- A node in its freshly-constructed state: `data_out` and `last_type`
unset, `children` identical to `original_children`, recursively. -/
def Pristine : Node → Prop
  | .mk _ d l oc ch => d = .vnone ∧ l = none ∧ ch = oc ∧ PristineList oc

/-- Every node of the list is pristine. -/
def PristineList : List Node → Prop
  | [] => True
  | c :: cs => Pristine c ∧ PristineList cs

end

/-- The C3 tuple node: `Tuple[Union[int, str]]`, one union child. -/
def c3tuple : Node :=
  .mk .tuple .vnone none
    [.mk .union .vnone none [mkSimple .intC, mkSimple .strC]
      [mkSimple .intC, mkSimple .strC]]
    [.mk .union .vnone none [mkSimple .intC, mkSimple .strC]
      [mkSimple .intC, mkSimple .strC]]

/-- The state of `c3tuple` after successfully validating the tuple `(5,)`. -/
def c3mid : Node :=
  .mk .tuple (.vtuple [.vint 5]) (some .tupleC)
    [.mk .union .vnone none [mkSimple .intC, mkSimple .strC]
      [mkSimple .intC, mkSimple .strC]]
    [.mk .union (.vint 5) (some .intC) [mkSimple .intC, mkSimple .strC]
      [.mk (.simple .intC) (.vint 5) (some .intC) [] [], mkSimple .strC]]

/-- The state of `c3mid` after validating the tuple `("x",)`. -/
def c3fin : Node :=
  .mk .tuple (.vtuple [.vint 5]) (some .tupleC)
    [.mk .union .vnone none [mkSimple .intC, mkSimple .strC]
      [mkSimple .intC, mkSimple .strC]]
    [.mk .union (.vint 5) (some .strC) [mkSimple .intC, mkSimple .strC]
      [.mk (.simple .intC) (.vint 5) (some .intC) [] [],
       .mk (.simple .strC) (.vstr "x") (some .strC) [] []]]

/-- Replace a node's `original_children` field, leaving everything else. -/
def setOrig : Node → List Node → Node
  | .mk k d l _ ch, o => .mk k d l o ch

/-- The state of `Union[int, str]` after a forced validation of `5`:
pruned to the `int` branch. -/
def c2after : Node :=
  .mk .union (.vint 5) (some .intC) [mkSimple .intC, mkSimple .strC]
    [.mk (.simple .intC) (.vint 5) (some .intC) [] []]

mutual

/-- The C5 invariant, amended: at every node, the variant tags of `children`
form a subsequence of a finite concatenation of copies of the variant tags
of `original_children` (repetition arises only from `SimpleNode`'s sequence
expansion `self.children *= len(data)`), recursively in the tree; and the
template `original_children` stay in their construction state. -/
def NodeInv : Node → Prop
  | .mk _ _ _ oc ch =>
      (∃ j, List.Sublist (ch.map Node.kind) (listMul (oc.map Node.kind) j)) ∧
      NodeInvList ch ∧ PristineList oc

/-- The invariant at every node of the list. -/
def NodeInvList : List Node → Prop
  | [] => True
  | c :: cs => NodeInv c ∧ NodeInvList cs

end

/-- The states reachable from a node through any sequence of completed
`validate` calls and `reset` calls. -/
inductive Reach : Node → Node → Prop where
  | refl (n : Node) : Reach n n
  | validated (a n n' : Node) (d : PyVal) (f b : Bool) :
      Reach a n → Node.validate n d f = .ok (b, n') → Reach a n'
  | wasReset (a n : Node) : Reach a n → Reach a n.reset

/-- The state of `c7node` (a `SimpleNode(list)` with one `int` template
child) after successfully validating `[1, 2]`: two children against a
one-element template. -/
def c5after : Node :=
  .mk (.simple .listC) (.vlist [.vint 1, .vint 2]) (some .listC)
    [mkSimple .intC]
    [.mk (.simple .intC) (.vint 1) (some .intC) [] [],
     .mk (.simple .intC) (.vint 2) (some .intC) [] []]

/-! ### Basic facts about the recursion machinery -/

theorem Except.bind_ok_left {α β : Type} (a : α)
    (f : α → Except PyErr β) : Except.bind (.ok a) f = f a := rfl

theorem Except.bind_error_left {α β : Type} (e : PyErr)
    (f : α → Except PyErr β) :
    Except.bind (.error e : Except PyErr α) f = .error e := rfl

theorem Except.bind_eq_ok {α β : Type} {x : Except PyErr α}
    {f : α → Except PyErr β} {b : β} :
    Except.bind x f = .ok b ↔ ∃ a, x = .ok a ∧ f a = .ok b := by
  cases x with
  | error e => simp [Except.bind]
  | ok a => simp [Except.bind]

theorem mem_listMul {α : Type} {l : List α} {k : Nat} {c : α}
    (h : c ∈ listMul l k) : c ∈ l := by
  induction k with
  | zero => simp [listMul] at h
  | succ k ih =>
      simp only [listMul, List.mem_append] at h
      rcases h with h | h
      · exact h
      · exact ih h

theorem mem_mapData_children {k : NodeKind} {ch : List Node} {d : PyVal}
    {pd : List PyVal} {ch1 : List Node} {c : Node}
    (h : mapData k ch d = .ok (pd, ch1)) (hc : c ∈ ch1) : c ∈ ch := by
  cases k with
  | simple dt =>
      cases d <;>
        simp only [mapData, Except.ok.injEq, Prod.mk.injEq] at h <;>
        rw [← h.2] at hc
      case vlist => exact mem_listMul hc
      all_goals exact hc
  | union =>
      simp only [mapData, Except.ok.injEq, Prod.mk.injEq] at h
      rw [← h.2] at hc; exact hc
  | typeVar =>
      simp only [mapData, Except.ok.injEq, Prod.mk.injEq] at h
      rw [← h.2] at hc; exact hc
  | tuple =>
      cases d <;>
        simp only [mapData, Except.ok.injEq, Prod.mk.injEq] at h <;>
        rw [← h.2] at hc <;> exact hc
  | callable =>
      rcases hl : (PyVal.hintsOf d).lookup "return" with _ | r
      · simp [mapData, hl] at h
      · simp only [mapData, hl, Except.ok.injEq, Prod.mk.injEq] at h
        rw [← h.2] at hc; exact hc

theorem depth_le_of_mem {c : Node} {ch : List Node} (h : c ∈ ch) :
    Node.depth c ≤ Node.depthList ch := by
  induction ch with
  | nil => simp at h
  | cons a cs ih =>
      rcases List.mem_cons.mp h with h | h
      · subst h; simp [Node.depthList]
      · calc Node.depth c ≤ Node.depthList cs := ih h
          _ ≤ Node.depthList (a :: cs) := by simp [Node.depthList]

theorem runChildren_congr {vf vf' : Node → PyVal → Except PyErr (Bool × Node)}
    {l : List Node} {pd : List PyVal}
    (h : ∀ c ∈ l, ∀ d, vf c d = vf' c d) :
    runChildren vf l pd = runChildren vf' l pd := by
  induction l generalizing pd with
  | nil => cases pd <;> rfl
  | cons c cs ih =>
      cases pd with
      | nil => rfl
      | cons d ds =>
          simp only [runChildren, h c (List.mem_cons_self c cs) d,
            ih (fun x hx dd => h x (List.mem_cons_of_mem c hx) dd)]

theorem validateStep_congr
    {vf vf' : Node → PyVal → Bool → Except PyErr (Bool × Node)}
    (n : Node) (data : PyVal) (force : Bool)
    (h : ∀ c ∈ n.children, ∀ d tv, vf c d tv = vf' c d tv) :
    validateStep vf n data force = validateStep vf' n data force := by
  cases n with
  | mk k dout lt oc ch =>
      simp only [validateStep]
      rcases hm : mapData k ch data with e | ⟨pd, ch1⟩
      · rfl
      · have hrc : runChildren (fun c d => vf c d (typeVarFlag k)) ch1 pd =
            runChildren (fun c d => vf' c d (typeVarFlag k)) ch1 pd :=
          runChildren_congr (fun c hc d =>
            h c (mem_mapData_children hm hc) d (typeVarFlag k))
        simp only [Except.bind_ok_left, hrc]

theorem validateF_congr : ∀ (f1 f2 : Nat) (n : Node) (d : PyVal) (fo : Bool),
    n.depth ≤ f1 → n.depth ≤ f2 →
    validateF f1 n d fo = validateF f2 n d fo := by
  intro f1
  induction f1 with
  | zero =>
      intro f2 n d fo h1 h2
      cases n with
      | mk k dout lt oc ch => simp [Node.depth] at h1
  | succ f1 ih =>
      intro f2 n d fo h1 h2
      cases n with
      | mk k dout lt oc ch =>
          cases f2 with
          | zero => simp [Node.depth] at h2
          | succ g =>
              have hd1 : Node.depthList ch ≤ f1 := by
                simpa [Node.depth] using h1
              have hd2 : Node.depthList ch ≤ g := by
                simpa [Node.depth] using h2
              simp only [validateF]
              exact validateStep_congr _ d fo (by
                intro c hc dd tv
                have hc' : Node.depth c ≤ Node.depthList ch :=
                  depth_le_of_mem (by simpa [Node.children] using hc)
                exact ih g c dd tv (le_trans hc' hd1) (le_trans hc' hd2))

theorem validateF_fuel_sufficient {fuel : Nat} {n : Node} (d : PyVal)
    (fo : Bool) (h : n.depth ≤ fuel) :
    validateF fuel n d fo = Node.validate n d fo :=
  validateF_congr fuel n.depth n d fo h le_rfl

/-- One-step unfolding of `Node.validate` in terms of itself: the driver runs
each child `validate` to completion with the parent's `type_var` flag as its
`force` argument. -/
theorem validate_eq_step (n : Node) (data : PyVal) (force : Bool) :
    Node.validate n data force =
      validateStep (fun c d tv => Node.validate c d tv) n data force := by
  cases n with
  | mk k dout lt oc ch =>
      show validateF (Node.depthList ch + 1) _ data force = _
      simp only [validateF]
      exact validateStep_congr _ data force (by
        intro c hc dd tv
        exact validateF_fuel_sufficient dd tv
          (depth_le_of_mem (by simpa [Node.children] using hc)))

/-- Inversion of one `validate` step: the variant tag and
`original_children` are never modified by `validate`, and a `false` outcome
leaves `data_out` and `last_type` untouched (the source only assigns them on
the success path). -/
theorem validateStep_ok_inv
    {vf : Node → PyVal → Bool → Except PyErr (Bool × Node)}
    {n : Node} {data : PyVal} {force : Bool} {b : Bool} {n' : Node}
    (h : validateStep vf n data force = .ok (b, n')) :
    n'.kind = n.kind ∧ n'.origChildren = n.origChildren ∧
      (b = false → n'.dataOut = n.dataOut ∧ n'.lastType = n.lastType) := by
  cases n with
  | mk k dout lt oc ch =>
      simp only [validateStep] at h
      split at h
      · rw [Except.bind_eq_ok] at h
        obtain ⟨⟨pd, ch1⟩, hm, h⟩ := h
        rw [Except.bind_eq_ok] at h
        obtain ⟨⟨ch2, results⟩, hrc, h⟩ := h
        split at h
        · rw [Except.bind_eq_ok] at h
          obtain ⟨out, hred, h⟩ := h
          simp only [Except.ok.injEq, Prod.mk.injEq] at h
          obtain ⟨hb, hn⟩ := h
          subst hb; subst hn
          simp [Node.kind, Node.origChildren]
        · simp only [Except.ok.injEq, Prod.mk.injEq] at h
          obtain ⟨hb, hn⟩ := h
          subst hb; subst hn
          simp [Node.kind, Node.origChildren, Node.dataOut, Node.lastType]
      · simp only [Except.ok.injEq, Prod.mk.injEq] at h
        obtain ⟨hb, hn⟩ := h
        subst hb; subst hn
        simp [Node.kind, Node.origChildren, Node.dataOut, Node.lastType]

theorem validate_ok_inv {n : Node} {data : PyVal} {force : Bool} {b : Bool}
    {n' : Node} (h : Node.validate n data force = .ok (b, n')) :
    n'.kind = n.kind ∧ n'.origChildren = n.origChildren ∧
      (b = false → n'.dataOut = n.dataOut ∧ n'.lastType = n.lastType) := by
  rw [validate_eq_step] at h
  exact validateStep_ok_inv h

/-- A successful child loop consumed every child and produced one result per
child. -/
theorem runChildren_ok_length
    {vf : Node → PyVal → Except PyErr (Bool × Node)} :
    ∀ {l : List Node} {pd : List PyVal} {cs : List Node} {bs : List Bool},
    runChildren vf l pd = .ok (cs, bs) →
    cs.length = l.length ∧ bs.length = l.length := by
  intro l
  induction l with
  | nil =>
      intro pd cs bs h
      cases pd <;> simp only [runChildren, Except.ok.injEq, Prod.mk.injEq] at h <;>
        obtain ⟨h1, h2⟩ := h <;> rw [← h1, ← h2] <;> simp
  | cons c l ih =>
      intro pd cs bs h
      cases pd with
      | nil => simp [runChildren] at h
      | cons d ds =>
          simp only [runChildren] at h
          rcases hv : vf c d with e | ⟨b, c'⟩ <;> rw [hv] at h
          · simp at h
          · rcases hr : runChildren vf l ds with e | ⟨cs', bs'⟩ <;> rw [hr] at h
            · simp at h
            · simp only [Except.ok.injEq, Prod.mk.injEq] at h
              obtain ⟨h1, h2⟩ := h
              obtain ⟨ih1, ih2⟩ := ih hr
              rw [← h1, ← h2]
              simp [ih1, ih2]

/-- When the propagated data is strictly shorter than the child list, the
child loop aborts with an exception (the `IndexError` of
`propagated_data[i]`, or an exception of an earlier child). -/
theorem runChildren_short_error
    (vf : Node → PyVal → Except PyErr (Bool × Node)) :
    ∀ {l : List Node} {pd : List PyVal}, pd.length < l.length →
    ∃ e, runChildren vf l pd = .error e := by
  intro l
  induction l with
  | nil => intro pd h; simp at h
  | cons c l ih =>
      intro pd h
      cases pd with
      | nil => exact ⟨.indexError, rfl⟩
      | cons d ds =>
          rcases hv : vf c d with e | ⟨b, c'⟩
          · exact ⟨e, by simp [runChildren, hv]⟩
          · have hlen : ds.length < l.length := by
              simpa [Nat.succ_lt_succ_iff] using h
            obtain ⟨e, he⟩ := ih hlen
            exact ⟨e, by simp [runChildren, hv, he]⟩

/-! ### Claim C9 -/

/-- C9 (confirmed): for every `CallableNode`, a `validate` call on a callable
value that passes the `isinstance(data, typing.Callable)` type-check but
whose introspected type hints contain no `return` entry raises a `KeyError`
from `map_data` instead of completing with a boolean result. -/
theorem c9_missing_return_raises_keyError
    (dout : PyVal) (lt : Option PyClass) (oc ch : List Node) (force : Bool)
    (hints : List (String × PyClass))
    (hr : hints.lookup "return" = none) :
    PyVal.isCallable (.vfunc hints) = true ∧
    mapData .callable ch (.vfunc hints) = .error .keyError ∧
    Node.validate (.mk .callable dout lt oc ch) (.vfunc hints) force =
      .error .keyError := by
  have hm : mapData .callable ch (.vfunc hints) = .error .keyError := by
    simp [mapData, PyVal.hintsOf, hr]
  refine ⟨rfl, hm, ?_⟩
  rw [validate_eq_step]
  simp [validateStep, validateData, PyVal.isCallable, hm,
    Except.bind_error_left]

/-- Witness for C9: a callable whose only hint is a parameter `x : int`. -/
theorem c9_missing_return_raises_keyError_witness :
    PyVal.isCallable (.vfunc [("x", .intC)]) = true ∧
    mapData .callable [] (.vfunc [("x", .intC)]) = .error .keyError ∧
    Node.validate (.mk .callable .vnone none [] []) (.vfunc [("x", .intC)])
      false = .error .keyError :=
  c9_missing_return_raises_keyError .vnone none [] [] false [("x", .intC)] rfl

/-! ### Claim C8 -/

/-- C8 counterexample: a `SimpleNode(list)` with zero children validating
`[1, 2, 3]`.  `map_data` decomposes into 3 elements while the node has 0
children — a length mismatch — yet `validate` completes normally with `True`
(the extra decomposed elements are silently ignored because the loop runs
over `children`), contradicting the claim that every such mismatch aborts
the validation as a fatal defect. -/
theorem c8_counterexample :
    mapData (.simple .listC) [] (.vlist [.vint 1, .vint 2, .vint 3]) =
      .ok ([.vint 1, .vint 2, .vint 3], []) ∧
    Node.validate (mkSimple .listC) (.vlist [.vint 1, .vint 2, .vint 3])
      false =
      .ok (true, .mk (.simple .listC) (.vlist [.vint 1, .vint 2, .vint 3])
            (some .listC) [] []) :=
  ⟨rfl, rfl⟩

/-- C8 amended: when the variant's `decompose` returns a sequence strictly
shorter than `children`, the validation of that node's subtree aborts with an
exception instead of returning a boolean (the `IndexError` of
`propagated_data[i]`, or an earlier child's exception); a sequence longer
than `children` is silently truncated — the extra elements are ignored. -/
theorem c8_amended_short_decompose_aborts
    (k : NodeKind) (dout : PyVal) (lt : Option PyClass) (oc ch : List Node)
    (data : PyVal) (force : Bool) (pd : List PyVal) (ch1 : List Node)
    (hval : validateData k lt ch data force = true)
    (hm : mapData k ch data = .ok (pd, ch1))
    (hlen : pd.length < ch1.length) :
    ∃ e, Node.validate (.mk k dout lt oc ch) data force = .error e := by
  obtain ⟨e, he⟩ := runChildren_short_error
    (fun c d => Node.validate c d (typeVarFlag k)) hlen
  refine ⟨e, ?_⟩
  rw [validate_eq_step]
  simp [validateStep, hval, hm, he, Except.bind_ok_left,
    Except.bind_error_left]

/-- Witness for C8 amended: a `SimpleNode(list)` that already carries two
children validating a one-element list — decompose yields 1 element against
2 children, and validation aborts with an exception. -/
theorem c8_amended_short_decompose_aborts_witness :
    ∃ e, Node.validate
      (.mk (.simple .listC) .vnone none [] [mkSimple .intC, mkSimple .intC])
      (.vlist [.vint 7]) false = .error e :=
  c8_amended_short_decompose_aborts (.simple .listC) .vnone none []
    [mkSimple .intC, mkSimple .intC] (.vlist [.vint 7]) false
    [.vint 7] [mkSimple .intC, mkSimple .intC] rfl rfl (by decide)

/-! ### Claim C7 -/

/-- C7 counterexample: a `ClassNode` over `int` (a `SimpleNode(int)`, with no
children, as the tree-builder creates for a bare `int`) validating the list
`[1, 2, 3]` does not succeed: `checkType` fails because
`issubclass(list, int)` is false, and the children count stays 0, not 3. -/
theorem c7_counterexample :
    Node.validate (mkSimple .intC) (.vlist [.vint 1, .vint 2, .vint 3])
      false = .ok (false, mkSimple .intC) ∧
    (mkSimple .intC).children.length = 0 :=
  ⟨rfl, rfl⟩

/-- C7 amended: a `SimpleNode` over `list` with one `int` child validating
`[1, 2, 3]` succeeds and its children count becomes 3; the same fresh node
validating `[1, "x", 3]` fails overall (strict AND over the expanded
children) while all three positions are still evaluated — the child loop on
the three expanded children returns the full results list
`[True, False, True]` with no short-circuit. -/
theorem c7_amended_sequence_expansion :
    (Node.validate c7node (.vlist [.vint 1, .vint 2, .vint 3]) false).map
        (fun p => (p.1, p.2.children.length)) = .ok (true, 3) ∧
    (Node.validate c7node (.vlist [.vint 1, .vstr "x", .vint 3]) false).map
        (fun p => (p.1, p.2.children.length)) = .ok (false, 3) ∧
    (runChildren (fun c d => Node.validate c d false)
        (listMul [mkSimple .intC] 3) [.vint 1, .vstr "x", .vint 3]).map
        Prod.snd = .ok [true, false, true] :=
  ⟨rfl, rfl, rfl⟩

/-! ### Claim C6 -/

/-- C6 counterexample: a `SimpleNode(int)` validates `5` (success,
`data_out = 5`), then validates `"x"` (failure).  After the failing call
`data_out` is still `5`, not the unset marker — stale values from a previous
success are not cleared, contradicting the claim that `data_out` is unset
whenever the most recent `validate` call returned false. -/
theorem c6_counterexample :
    Node.validate (mkSimple .intC) (.vint 5) false = .ok (true, c6n1) ∧
    Node.validate c6n1 (.vstr "x") false = .ok (false, c6n1) ∧
    c6n1.dataOut = .vint 5 :=
  ⟨rfl, rfl, rfl⟩

/-- C6 amended: after a `validate` call that returns true, `data_out` equals
the recombination (`reduce_data`) of the children's outputs at that moment;
a `validate` call that returns false leaves `data_out` unchanged (so it is
the unset marker `None` only until the first successful validation since
construction or the last `reset`). -/
theorem c6_amended_output_invariant :
    (∀ (n : Node) (data : PyVal) (force : Bool) (n' : Node),
      Node.validate n data force = .ok (true, n') →
      ∃ pd ch1 ch2 results out,
        mapData n.kind n.children data = .ok (pd, ch1) ∧
        runChildren (fun c d => Node.validate c d (typeVarFlag n.kind))
          ch1 pd = .ok (ch2, results) ∧
        reduceData n.kind (ch2.map Node.dataOut) data = .ok out ∧
        n'.dataOut = out) ∧
    (∀ (n : Node) (data : PyVal) (force : Bool) (n' : Node),
      Node.validate n data force = .ok (false, n') →
      n'.dataOut = n.dataOut) ∧
    (∀ n : Node, (Node.reset n).dataOut = .vnone) := by
  refine ⟨?_, ?_, ?_⟩
  · intro n data force n' h
    rw [validate_eq_step] at h
    cases n with
    | mk k dout lt oc ch =>
        simp only [validateStep] at h
        split at h
        · rw [Except.bind_eq_ok] at h
          obtain ⟨⟨pd, ch1⟩, hm, h⟩ := h
          rw [Except.bind_eq_ok] at h
          obtain ⟨⟨ch2, results⟩, hrc, h⟩ := h
          split at h
          · rw [Except.bind_eq_ok] at h
            obtain ⟨out, hred, h⟩ := h
            simp only [Except.ok.injEq, Prod.mk.injEq] at h
            obtain ⟨_, hn⟩ := h
            exact ⟨pd, ch1, ch2, results, out, hm, hrc, hred,
              by rw [← hn]; rfl⟩
          · simp at h
        · simp at h
  · intro n data force n' h
    exact ((validate_ok_inv h).2.2 rfl).1
  · intro n; cases n; rfl

/-- Witness for C6 amended, at a `SimpleNode(int)`: the success case on `5`,
the failure case on `"x"` (which leaves `data_out` unchanged), and `reset`. -/
theorem c6_amended_output_invariant_witness :
    (∃ pd ch1 ch2 results out,
      mapData (mkSimple .intC).kind (mkSimple .intC).children (.vint 5) =
        .ok (pd, ch1) ∧
      runChildren (fun c d => Node.validate c d
        (typeVarFlag (mkSimple .intC).kind)) ch1 pd = .ok (ch2, results) ∧
      reduceData (mkSimple .intC).kind (ch2.map Node.dataOut) (.vint 5) =
        .ok out ∧
      c6n1.dataOut = out) ∧
    c6n1.dataOut = c6n1.dataOut ∧
    (Node.reset (mkSimple .intC)).dataOut = .vnone :=
  ⟨c6_amended_output_invariant.1 (mkSimple .intC) (.vint 5) false c6n1 rfl,
   c6_amended_output_invariant.2.1 c6n1 (.vstr "x") false c6n1 rfl,
   c6_amended_output_invariant.2.2 (mkSimple .intC)⟩

/-! ### Claim C4 -/

/-- C4 counterexample: `Union[NoneType, int]` validates `5` (output `5`),
then validates `None` without a reset.  The `NoneType` branch succeeds (its
recorded `last_type` proves it ran) with legitimate output `None`, yet the
union's stored output is the stale `5` of the other branch: the absent
marker is the domain's own `None`, not a dedicated sentinel, so the first
child's legitimate `None` output is skipped over — contradicting the claim. -/
theorem c4_counterexample :
    Node.validate c4node (.vint 5) false = .ok (true, c4mid) ∧
    Node.validate c4mid .vnone false = .ok (true, c4fin) ∧
    c4fin.children.map Node.dataOut = [.vnone, .vint 5] ∧
    c4fin.children.map Node.lastType = [some .noneC, some .intC] ∧
    c4fin.dataOut = .vint 5 :=
  ⟨rfl, rfl, rfl, rfl, rfl⟩

/-- C4 amended: for every `UnionNode` whose `validate` reaches the recombine
phase, the stored output is the first child output, in child order, that is
not Python `None`, or `None` when every child output is `None`.  The absent
marker is the domain's own `None` (`data_out` is initialised to `None` and
`reduce_data` tests `element is not None`), so a child whose legitimate
output is `None` is skipped over. -/
theorem c4_amended_recombine
    (dout : PyVal) (lt : Option PyClass) (oc ch : List Node)
    (data : PyVal) (force : Bool) (n' : Node)
    (h : Node.validate (.mk .union dout lt oc ch) data force =
      .ok (true, n')) :
    ∃ ch2 results,
      runChildren (fun c d => Node.validate c d false) ch
        (ch.map fun _ => data) = .ok (ch2, results) ∧
      n'.dataOut =
        ((ch2.map Node.dataOut).find? (fun e => !e.isNone)).getD .vnone := by
  rw [validate_eq_step] at h
  simp only [validateStep, mapData, Except.bind_ok_left] at h
  split at h
  · rw [Except.bind_eq_ok] at h
    obtain ⟨⟨ch2, results⟩, hrc, h⟩ := h
    split at h
    · rw [Except.bind_eq_ok] at h
      obtain ⟨out, hred, h⟩ := h
      simp only [Except.ok.injEq, Prod.mk.injEq] at h
      obtain ⟨_, hn⟩ := h
      refine ⟨ch2, results, ?_, ?_⟩
      · simpa [typeVarFlag] using hrc
      · rw [← hn]
        simp only [Node.dataOut]
        simp only [reduceData] at hred
        rcases hf : (ch2.map Node.dataOut).find? (fun e => !e.isNone)
          with _ | e <;> rw [hf] at hred <;>
          simp only [Except.ok.injEq] at hred <;> rw [hf] <;>
          simp only [Option.getD_some, Option.getD_none] <;>
          exact hred.symm
    · simp at h
  · simp at h

/-- Witness for C4 amended: the first validation of `c4node` on `5`. -/
theorem c4_amended_recombine_witness :
    ∃ ch2 results,
      runChildren (fun c d => Node.validate c d false)
        [mkSimple .noneC, mkSimple .intC]
        ([mkSimple .noneC, mkSimple .intC].map fun _ => (.vint 5 : PyVal)) =
        .ok (ch2, results) ∧
      c4mid.dataOut =
        ((ch2.map Node.dataOut).find? (fun e => !e.isNone)).getD .vnone :=
  c4_amended_recombine .vnone none [mkSimple .noneC, mkSimple .intC]
    [mkSimple .noneC, mkSimple .intC] (.vint 5) false c4mid rfl

/-! ### Claim C1 -/

theorem issubclass_self (A : PyClass) : issubclass A A = true := by
  simp [issubclass]

/-- `listMul` of the empty list is empty. -/
theorem listMul_nil {α : Type} : ∀ k : Nat, listMul ([] : List α) k = []
  | 0 => rfl
  | k + 1 => by simp [listMul, listMul_nil k]

/-- For a data value that is not itself a class object, `SimpleNode`'s
`validate_data` is `issubclass(type(data), self.data_type)`. -/
theorem validateData_simple_inst {a : PyVal} (ha : a.isType = false)
    (dt : PyClass) (lt : Option PyClass) (ch : List Node) (s : Bool) :
    validateData (.simple dt) lt ch a s = issubclass a.typeOf dt := by
  cases a <;> first | rfl | simp [PyVal.isType] at ha

/-- A childless `SimpleNode` validates any data without recursion: success
exactly when its `validate_data` accepts, recording the data as output. -/
theorem validate_simple_childless (dt : PyClass) (dout : PyVal)
    (lt : Option PyClass) (oc : List Node) (d : PyVal) (f : Bool) :
    Node.validate (.mk (.simple dt) dout lt oc []) d f =
      if validateData (.simple dt) lt [] d f then
        .ok (true, .mk (.simple dt) d (some d.typeOf) oc [])
      else .ok (false, .mk (.simple dt) dout lt oc []) := by
  rw [validate_eq_step]
  by_cases hv : validateData (.simple dt) lt [] d f
  · simp only [validateStep, hv, if_true]
    cases d <;>
      simp [mapData, runChildren, listMul_nil, aggregateResults, strictFlag,
        reduceData, pruneChildren, Except.bind_ok_left]
  · simp [validateStep, hv]

/-- `UnionNode`'s `reduce_data` never raises: it returns the first child
output that is not `None`, defaulting to `None`. -/
theorem reduceData_union_eq (l : List PyVal) (old : PyVal) :
    reduceData .union l old =
      .ok ((l.find? (fun e => !e.isNone)).getD .vnone) := by
  simp only [reduceData]
  rcases h : l.find? (fun e => !e.isNone) with _ | e <;> simp [h]

/-- A sticky validation of a union that has recorded `last_type = t` rejects
any data whose runtime type differs from `t`, leaving the node unchanged. -/
theorem validate_union_sticky_reject {u : Node} {t : PyClass}
    (hk : u.kind = .union) (hl : u.lastType = some t) (b : PyVal)
    (hbt : b.typeOf ≠ t) : Node.validate u b true = .ok (false, u) := by
  cases u with
  | mk k dout lt oc ch =>
      simp only [Node.kind] at hk
      simp only [Node.lastType] at hl
      subst hk; subst hl
      rw [validate_eq_step]
      simp [validateStep, validateData, hbt]

/-- A fresh two-branch union (`last_type` unset) accepts any non-class data
whose runtime type matches one of its two simple branches, and records the
data's runtime type in `last_type`. -/
theorem validate_union_fresh2 (A B : PyClass) (dout : PyVal)
    (oc : List Node) (d : PyVal) (hd : d.isType = false)
    (hor : issubclass d.typeOf A = true ∨ issubclass d.typeOf B = true)
    (force : Bool) :
    ∃ u', Node.validate (.mk .union dout none oc [mkSimple A, mkSimple B])
        d force = .ok (true, u') ∧
      u'.kind = .union ∧ u'.lastType = some d.typeOf ∧
      u'.origChildren = oc := by
  have hA := validate_simple_childless A .vnone none [] d false
  have hB := validate_simple_childless B .vnone none [] d false
  rw [validateData_simple_inst hd] at hA hB
  rw [validate_eq_step]
  simp only [validateStep, validateData, if_true]
  simp only [mapData, Except.bind_ok_left, typeVarFlag]
  rcases hrA : issubclass d.typeOf A with _ | _ <;>
    rcases hrB : issubclass d.typeOf B with _ | _ <;>
      rw [hrA] at hA <;> rw [hrB] at hB <;>
      simp only [if_true, if_false, Bool.false_eq_true] at hA hB
  · rcases hor with hor | hor
    · rw [hrA] at hor; exact absurd hor (by simp)
    · rw [hrB] at hor; exact absurd hor (by simp)
  all_goals
    simp only [runChildren, mkSimple, hA, hB, aggregateResults, strictFlag,
      List.any_cons, List.any_nil, reduceData_union_eq, Except.bind_ok_left,
      pruneChildren, indexOfTrue, Bool.or_true, Bool.true_or, if_true,
      Bool.false_or, if_false, Bool.or_false]
  all_goals
    exact ⟨_, rfl, rfl, rfl, rfl⟩

/-- The C1 tree coincides with the tree built through `add_child`. -/
theorem c1tree_built (A B : PyClass) :
    c1tree A B =
      addChild mkTypeVar (addChild (addChild mkUnion (mkSimple A))
        (mkSimple B)) := rfl

/-- A `TypeVarNode` with exactly one child delegates to that child with
`force = True`; on child success it succeeds recording the child's output,
on child failure it fails leaving its state (the child update aside). -/
theorem validate_typeVar_one (dout : PyVal) (lt : Option PyClass)
    (oc : List Node) (c : Node) (d : PyVal) (b : Bool) (c' : Node)
    (hc : Node.validate c d true = .ok (b, c')) :
    Node.validate (.mk .typeVar dout lt oc [c]) d false =
      if b then .ok (true, .mk .typeVar c'.dataOut (some d.typeOf) oc [c'])
      else .ok (false, .mk .typeVar dout lt oc [c']) := by
  rw [validate_eq_step]
  simp only [validateStep, validateData, if_true, mapData,
    Except.bind_ok_left, typeVarFlag, runChildren, hc]
  cases b <;>
    simp [aggregateResults, strictFlag, reduceData, pruneChildren,
      Except.bind_ok_left]

/-- C1 (confirmed): for a `TypeVarNode` wrapping a `UnionNode` with two
branches `A` and `B` (distinct concrete classes, data values that are not
themselves class objects): a first `validate` through the instance on data
of runtime type `A` succeeds; a second `validate` on data of runtime type
`B` without an intervening `reset` returns false (the union's recorded
`last_type` rejects it under the sticky check); after a `reset` of the
instance the second call returns true. -/
theorem c1_stickiness (A B : PyClass) (a b : PyVal)
    (hA : a.typeOf = A) (hB : b.typeOf = B) (hAB : A ≠ B)
    (ha : a.isType = false) (hb : b.isType = false) :
    ∃ n1 n2 n3,
      Node.validate (c1tree A B) a false = .ok (true, n1) ∧
      Node.validate n1 b false = .ok (false, n2) ∧
      Node.validate (Node.reset n1) b false = .ok (true, n3) := by
  obtain ⟨u1, hu1, hu1k, hu1l, hu1o⟩ :=
    validate_union_fresh2 A B .vnone [mkSimple A, mkSimple B] a ha
      (Or.inl (by rw [hA]; exact issubclass_self A)) true
  have h1 : Node.validate (c1tree A B) a false =
      .ok (true, .mk .typeVar u1.dataOut (some a.typeOf) [c1union A B] [u1]) := by
    have := validate_typeVar_one .vnone none [c1union A B] (c1union A B) a
      true u1 (by exact hu1)
    simpa [c1tree] using this
  have hu2 : Node.validate u1 b true = .ok (false, u1) :=
    validate_union_sticky_reject (t := A) hu1k (by rw [hu1l, hA]) b
      (by rw [hB]; exact fun hba => hAB hba.symm)
  have h2 : Node.validate
      (.mk .typeVar u1.dataOut (some a.typeOf) [c1union A B] [u1]) b false =
      .ok (false, .mk .typeVar u1.dataOut (some a.typeOf)
        [c1union A B] [u1]) := by
    have := validate_typeVar_one u1.dataOut (some a.typeOf) [c1union A B]
      u1 b false u1 hu2
    simpa using this
  obtain ⟨u3, hu3, _, _, _⟩ :=
    validate_union_fresh2 A B .vnone [mkSimple A, mkSimple B] b hb
      (Or.inr (by rw [hB]; exact issubclass_self B)) true
  have h3 : Node.validate
      (Node.reset (.mk .typeVar u1.dataOut (some a.typeOf)
        [c1union A B] [u1])) b false =
      .ok (true, .mk .typeVar u3.dataOut (some b.typeOf)
        [c1union A B] [u3]) := by
    have := validate_typeVar_one .vnone none [c1union A B] (c1union A B) b
      true u3 (by exact hu3)
    simpa [Node.reset, c1union] using this
  exact ⟨_, _, _, h1, h2, h3⟩

/-- Witness for C1: `A = int`, `B = str`, data `5` then `"x"`. -/
theorem c1_stickiness_witness :
    ∃ n1 n2 n3,
      Node.validate (c1tree .intC .strC) (.vint 5) false = .ok (true, n1) ∧
      Node.validate n1 (.vstr "x") false = .ok (false, n2) ∧
      Node.validate (Node.reset n1) (.vstr "x") false = .ok (true, n3) :=
  c1_stickiness .intC .strC (.vint 5) (.vstr "x") rfl rfl
    (by decide) rfl rfl

/-! ### Claim C10 -/

theorem length_listMul {α : Type} (l : List α) :
    ∀ k, (listMul l k).length = k * l.length
  | 0 => by simp [listMul]
  | k + 1 => by simp [listMul, length_listMul l k, Nat.succ_mul, Nat.add_comm]

/-- With `force = False` the prune step leaves `children` unchanged. -/
theorem pruneChildren_false (results : List Bool) (ch2 : List Node) :
    pruneChildren false results ch2 = ch2 := rfl

theorem validate_childlessSimple {dt : PyClass} {c : Node}
    (hc : childlessSimple dt c) (d : PyVal) (f : Bool) :
    ∃ b c', Node.validate c d f = .ok (b, c') ∧ childlessSimple dt c' := by
  obtain ⟨o, l, rfl⟩ := hc
  rw [validate_simple_childless]
  by_cases hv : validateData (.simple dt) l [] d f
  · exact ⟨true, _, by rw [if_pos hv], ⟨_, _, rfl⟩⟩
  · exact ⟨false, _, by rw [if_neg hv], ⟨_, _, rfl⟩⟩

/-- The child loop over childless simple nodes with enough propagated data
never raises: it returns one result per child, and the updated children are
again childless simple nodes. -/
theorem runChildren_childlessSimple_ok {dt : PyClass} :
    ∀ (l : List Node) (pd : List PyVal),
    (∀ c ∈ l, childlessSimple dt c) → l.length ≤ pd.length →
    ∃ cs bs, runChildren (fun c d => Node.validate c d false) l pd =
        .ok (cs, bs) ∧ cs.length = l.length ∧
        ∀ c ∈ cs, childlessSimple dt c := by
  intro l
  induction l with
  | nil =>
      intro pd _ _
      exact ⟨[], [], by cases pd <;> rfl, rfl, by simp⟩
  | cons c l ih =>
      intro pd hcs hlen
      cases pd with
      | nil => simp at hlen
      | cons d ds =>
          obtain ⟨b, c', hv, hc'⟩ :=
            validate_childlessSimple (hcs c (List.mem_cons_self c l)) d false
          obtain ⟨cs, bs, hr, hlen2, hcs2⟩ :=
            ih ds (fun x hx => hcs x (List.mem_cons_of_mem c hx))
              (by simpa using hlen)
          refine ⟨c' :: cs, b :: bs, ?_, by simp [hlen2], ?_⟩
          · simp [runChildren, hv, hr]
          · intro x hx
            rcases List.mem_cons.mp hx with hx | hx
            · subst hx; exact hc'
            · exact hcs2 x hx

/-- The child loop over childless simple nodes with too little propagated
data raises exactly the `IndexError` of `propagated_data[i]`. -/
theorem runChildren_childlessSimple_short {dt : PyClass} :
    ∀ (l : List Node) (pd : List PyVal),
    (∀ c ∈ l, childlessSimple dt c) → pd.length < l.length →
    runChildren (fun c d => Node.validate c d false) l pd =
      .error .indexError := by
  intro l
  induction l with
  | nil => intro pd _ h; simp at h
  | cons c l ih =>
      intro pd hcs hlen
      cases pd with
      | nil => rfl
      | cons d ds =>
          obtain ⟨b, c', hv, _⟩ :=
            validate_childlessSimple (hcs c (List.mem_cons_self c l)) d false
          have := ih ds (fun x hx => hcs x (List.mem_cons_of_mem c hx))
            (by simpa using hlen)
          simp [runChildren, hv, this]

/-- C10 (confirmed): after the C10 node successfully validates a list of
length `n ≥ 2`, its children have been multiplied to length `n`; a second
`validate` on a list of length `m ≥ 1` without an intervening `reset`
multiplies the current children (not the template) to length `n * m` in
`map_data`, and the child loop then indexes the `m`-element decomposed
sequence out of range, raising `IndexError` instead of returning a
boolean. -/
theorem c10_children_multiplication_indexError (dt2 : PyClass)
    (xs ys : List PyVal) (hx : 2 ≤ xs.length) (hy : 1 ≤ ys.length)
    (n1 : Node)
    (h1 : Node.validate (c10node dt2) (.vlist xs) false = .ok (true, n1)) :
    n1.children.length = xs.length ∧
    mapData (.simple .listC) n1.children (.vlist ys) =
      .ok (ys, listMul n1.children ys.length) ∧
    (listMul n1.children ys.length).length = xs.length * ys.length ∧
    Node.validate n1 (.vlist ys) false = .error .indexError := by
  have hall : ∀ c ∈ listMul [mkSimple dt2] xs.length,
      childlessSimple dt2 c := by
    intro c hc
    have := mem_listMul hc
    simp only [List.mem_singleton] at this
    subst this
    exact ⟨_, _, rfl⟩
  obtain ⟨cs, bs, hr, hcl, hcs⟩ := runChildren_childlessSimple_ok
    (listMul [mkSimple dt2] xs.length) xs hall
    (le_of_eq (by rw [length_listMul]; simp))
  rw [validate_eq_step] at h1
  simp only [validateStep, c10node, validateData, PyVal.typeOf,
    issubclass_self, if_true, mapData, Except.bind_ok_left,
    typeVarFlag] at h1
  rw [hr] at h1
  simp only [Except.bind_ok_left] at h1
  split at h1
  · simp only [reduceData, Except.bind_ok_left, pruneChildren_false,
      Except.ok.injEq, Prod.mk.injEq] at h1
    obtain ⟨_, hn1⟩ := h1
    subst hn1
    have hlen1 : cs.length = xs.length := by
      rw [hcl, length_listMul]; simp
    refine ⟨hlen1, rfl, ?_, ?_⟩
    · show (listMul cs ys.length).length = xs.length * ys.length
      rw [length_listMul, hlen1, Nat.mul_comm]
    · rw [validate_eq_step]
      simp only [validateStep, validateData, PyVal.typeOf, issubclass_self,
        if_true, mapData, Except.bind_ok_left, typeVarFlag]
      rw [runChildren_childlessSimple_short (listMul cs ys.length) ys
        (fun c hc => hcs c (mem_listMul hc)) ?_]
      · rfl
      · rw [length_listMul, hlen1]
        have h2 : ys.length * 2 ≤ ys.length * xs.length :=
          Nat.mul_le_mul (le_refl ys.length) hx
        omega
  · simp at h1

/-- Witness for C10: `dt2 = int`, first list `[1, 2]`, second list `[5]`:
children were multiplied to 2, the second `map_data` keeps 2 children
against 1 propagated element, and the second call raises `IndexError`. -/
theorem c10_children_multiplication_indexError_witness :
    c10after.children.length = ([.vint 1, .vint 2] : List PyVal).length ∧
    mapData (.simple .listC) c10after.children (.vlist [.vint 5]) =
      .ok ([.vint 5], listMul c10after.children
        ([.vint 5] : List PyVal).length) ∧
    (listMul c10after.children ([.vint 5] : List PyVal).length).length =
      ([.vint 1, .vint 2] : List PyVal).length *
        ([.vint 5] : List PyVal).length ∧
    Node.validate c10after (.vlist [.vint 5]) false = .error .indexError :=
  c10_children_multiplication_indexError .intC [.vint 1, .vint 2]
    [.vint 5] (by decide) (by decide) c10after rfl

/-! ### Claim C3 -/

theorem PristineList_mem : ∀ {l : List Node}, PristineList l →
    ∀ {c : Node}, c ∈ l → Pristine c := by
  intro l
  induction l with
  | nil => intro _ c hc; simp at hc
  | cons a as ih =>
      intro hp c hc
      rcases List.mem_cons.mp hc with hc | hc
      · subst hc; exact hp.1
      · exact ih hp.2 hc

theorem Pristine.dataOut_vnone {c : Node} (h : Pristine c) :
    c.dataOut = .vnone := by
  cases c with
  | mk k d l oc ch => exact h.1

/-- `validateF` inherits the inversion facts of `validateStep`. -/
theorem validateF_ok_inv {fuel : Nat} {n : Node} {data : PyVal}
    {force : Bool} {b : Bool} {n' : Node}
    (h : validateF fuel n data force = .ok (b, n')) :
    n'.kind = n.kind ∧ n'.origChildren = n.origChildren ∧
      (b = false → n'.dataOut = n.dataOut ∧ n'.lastType = n.lastType) := by
  cases fuel with
  | zero => simp [validateF] at h
  | succ g =>
      simp only [validateF] at h
      exact validateStep_ok_inv h

/-- The union-shaped child loop: every child receives the same datum `d`; if
each pristine child's success output is its datum and its failure leaves the
output unset, then every collected output is `d` or `None`, and some
collected output is `d` as soon as some child succeeded. -/
theorem runChildren_union_outs
    (vf : Node → PyVal → Except PyErr (Bool × Node)) (d : PyVal)
    (hvf : ∀ c dd b c', Pristine c → vf c dd = .ok (b, c') →
      (b = true → c'.dataOut = dd) ∧ (b = false → c'.dataOut = c.dataOut)) :
    ∀ (l : List Node) (cs : List Node) (bs : List Bool),
    (∀ c ∈ l, Pristine c) →
    runChildren vf l (l.map fun _ => d) = .ok (cs, bs) →
    (∀ v ∈ cs.map Node.dataOut, v = d ∨ v = .vnone) ∧
    (bs.any id = true → d ∈ cs.map Node.dataOut) := by
  intro l
  induction l with
  | nil =>
      intro cs bs _ h
      simp only [List.map_nil, runChildren, Except.ok.injEq,
        Prod.mk.injEq] at h
      obtain ⟨h1, h2⟩ := h
      rw [← h1, ← h2]
      simp
  | cons c l ih =>
      intro cs bs hp h
      simp only [List.map_cons, runChildren] at h
      rcases hv : vf c d with e | ⟨b, c'⟩ <;> rw [hv] at h
      · simp at h
      · rcases hr : runChildren vf l (l.map fun _ => d)
          with e | ⟨cs', bs'⟩ <;> rw [hr] at h
        · simp at h
        · simp only [Except.ok.injEq, Prod.mk.injEq] at h
          obtain ⟨h1, h2⟩ := h
          rw [← h1, ← h2]
          have hpc := hp c (List.mem_cons_self c l)
          have hout := hvf c d b c' hpc hv
          have hrec := ih cs' bs'
            (fun x hx => hp x (List.mem_cons_of_mem c hx)) hr
          have hcout : c'.dataOut = d ∨ c'.dataOut = .vnone := by
            cases b with
            | true => exact Or.inl (hout.1 rfl)
            | false =>
                exact Or.inr (by rw [hout.2 rfl, hpc.dataOut_vnone])
          constructor
          · intro v hv2
            rw [List.map_cons] at hv2
            rcases List.mem_cons.mp hv2 with hv2 | hv2
            · rw [hv2]; exact hcout
            · exact hrec.1 v hv2
          · intro hany
            simp only [List.any_cons] at hany
            rw [List.map_cons]
            rcases Bool.or_eq_true_iff.mp hany with hb | hb
            · exact List.mem_cons.mpr (Or.inl (hout.1 hb).symm)
            · exact List.mem_cons.mpr (Or.inr (hrec.2 hb))

/-- The tuple-shaped child loop: when every result is true, the collected
outputs of pristine children are exactly the consumed prefix of the
propagated data. -/
theorem runChildren_all_true_outs
    (vf : Node → PyVal → Except PyErr (Bool × Node))
    (hvf : ∀ c dd b c', Pristine c → vf c dd = .ok (b, c') →
      (b = true → c'.dataOut = dd)) :
    ∀ (l : List Node) (pd : List PyVal) (cs : List Node) (bs : List Bool),
    (∀ c ∈ l, Pristine c) → runChildren vf l pd = .ok (cs, bs) →
    bs.all id = true → cs.map Node.dataOut = pd.take l.length := by
  intro l
  induction l with
  | nil =>
      intro pd cs bs _ h _
      cases pd <;>
        simp only [runChildren, Except.ok.injEq, Prod.mk.injEq] at h <;>
        obtain ⟨h1, _⟩ := h <;> rw [← h1] <;> simp
  | cons c l ih =>
      intro pd cs bs hp h hall
      cases pd with
      | nil => simp [runChildren] at h
      | cons dd ds =>
          simp only [runChildren] at h
          rcases hv : vf c dd with e | ⟨b, c'⟩ <;> rw [hv] at h
          · simp at h
          · rcases hr : runChildren vf l ds with e | ⟨cs', bs'⟩ <;>
              rw [hr] at h
            · simp at h
            · simp only [Except.ok.injEq, Prod.mk.injEq] at h
              obtain ⟨h1, h2⟩ := h
              rw [← h1]
              rw [← h2] at hall
              simp only [List.all_cons, Bool.and_eq_true, id] at hall
              have hc' : c'.dataOut = dd :=
                (hvf c dd b c' (hp c (List.mem_cons_self c l)) hv) hall.1
              have := ih ds cs' bs'
                (fun x hx => hp x (List.mem_cons_of_mem c hx)) hr hall.2
              simp [hc', this]

theorem PyVal.isNone_iff {d : PyVal} : d.isNone = true ↔ d = .vnone := by
  cases d <;> simp [PyVal.isNone]

/-- Round-trip: a pristine node (and subtree) that validates successfully
stores the validated datum itself as its output, for every variant. -/
theorem validateF_pristine_roundtrip :
    ∀ (fuel : Nat) (n : Node) (d : PyVal) (f : Bool) (b : Bool) (n' : Node),
    Pristine n → validateF fuel n d f = .ok (b, n') → b = true →
    n'.dataOut = d := by
  intro fuel
  induction fuel with
  | zero => intro n d f b n' _ h _; simp [validateF] at h
  | succ fuel ih =>
      intro n d f b n' hp h hb
      subst hb
      cases n with
      | mk k dout lt oc ch =>
          have hp' : dout = .vnone ∧ lt = none ∧ ch = oc ∧ PristineList oc :=
            hp
          obtain ⟨hd0, hl0, hco, hpl⟩ := hp'
          subst hco
          have hmem : ∀ c ∈ ch, Pristine c := fun c hc =>
            PristineList_mem hpl hc
          simp only [validateF, validateStep] at h
          split at h
          case isFalse => simp at h
          case isTrue hv =>
            rw [Except.bind_eq_ok] at h
            obtain ⟨⟨pd, ch1⟩, hm, h⟩ := h
            rw [Except.bind_eq_ok] at h
            obtain ⟨⟨ch2, results⟩, hrc, h⟩ := h
            split at h
            case isFalse => simp at h
            case isTrue hagg =>
              rw [Except.bind_eq_ok] at h
              obtain ⟨out, hred, h⟩ := h
              simp only [Except.ok.injEq, Prod.mk.injEq] at h
              obtain ⟨_, hn⟩ := h
              rw [← hn]
              show out = d
              have hvf2 : ∀ c dd b2 c', Pristine c →
                  validateF fuel c dd false = .ok (b2, c') →
                  (b2 = true → c'.dataOut = dd) ∧
                  (b2 = false → c'.dataOut = c.dataOut) :=
                fun c dd b2 c' hpc hvc =>
                  ⟨fun hb2 => ih c dd false b2 c' hpc hvc hb2,
                   fun hb2 => ((validateF_ok_inv hvc).2.2 hb2).1⟩
              cases k with
              | simple dt =>
                  simp only [reduceData, Except.ok.injEq] at hred
                  exact hred.symm
              | callable =>
                  simp only [reduceData, Except.ok.injEq] at hred
                  exact hred.symm
              | union =>
                  simp only [mapData, Except.ok.injEq, Prod.mk.injEq] at hm
                  obtain ⟨hm1, hm2⟩ := hm
                  rw [← hm1, ← hm2] at hrc
                  simp only [typeVarFlag] at hrc
                  simp only [aggregateResults, strictFlag, if_false,
                    Bool.false_eq_true] at hagg
                  rw [reduceData_union_eq] at hred
                  simp only [Except.ok.injEq] at hred
                  obtain ⟨hall, hany⟩ := runChildren_union_outs
                    (fun c dd => validateF fuel c dd false) d hvf2
                    ch ch2 results hmem hrc
                  rw [← hred]
                  by_cases hdn : d = .vnone
                  · subst hdn
                    have hnone : (ch2.map Node.dataOut).find?
                        (fun e => !e.isNone) = none := by
                      rw [List.find?_eq_none]
                      intro v hv2
                      rcases hall v hv2 with h3 | h3 <;> simp [h3, PyVal.isNone]
                    rw [hnone]; rfl
                  · have hd2 : d ∈ ch2.map Node.dataOut := hany hagg
                    rcases hf : (ch2.map Node.dataOut).find?
                        (fun e => !e.isNone) with _ | v
                    · exfalso
                      have := List.find?_eq_none.mp hf d hd2
                      simp only [Bool.not_eq_true', Bool.not_eq_false] at this
                      exact hdn (PyVal.isNone_iff.mp this)
                    · have hvmem := List.mem_of_find?_eq_some hf
                      have hvp := List.find?_some hf
                      simp only [Bool.not_eq_true'] at hvp
                      rcases hall v hvmem with h3 | h3
                      · rw [hf, Option.getD_some, h3]
                      · exfalso
                        rw [h3] at hvp
                        simp [PyVal.isNone] at hvp
              | typeVar =>
                  simp only [mapData, Except.ok.injEq, Prod.mk.injEq] at hm
                  obtain ⟨hm1, hm2⟩ := hm
                  rw [← hm1, ← hm2] at hrc
                  simp only [typeVarFlag] at hrc
                  simp only [aggregateResults, strictFlag, if_false,
                    Bool.false_eq_true] at hagg
                  cases ch with
                  | nil =>
                      simp only [runChildren, Except.ok.injEq,
                        Prod.mk.injEq] at hrc
                      obtain ⟨_, hr2⟩ := hrc
                      rw [← hr2] at hagg
                      simp at hagg
                  | cons c rest =>
                      rcases hv1 : validateF fuel c d true with e | ⟨b1, c1⟩ <;>
                        rw [runChildren, hv1] at hrc
                      · simp at hrc
                      · cases rest with
                        | cons c2 r2 => simp [runChildren] at hrc
                        | nil =>
                            simp only [runChildren, Except.ok.injEq,
                              Prod.mk.injEq] at hrc
                            obtain ⟨hr1, hr2⟩ := hrc
                            rw [← hr1] at hred
                            rw [← hr2] at hagg
                            simp only [List.any_cons, List.any_nil,
                              Bool.or_false, id] at hagg
                            simp only [List.map_cons, List.map_nil,
                              reduceData, Except.ok.injEq] at hred
                            rw [← hred]
                            exact ih c d true b1 c1
                              (hmem c (List.mem_cons_self c [])) hv1 hagg
              | tuple =>
                  cases d with
                  | vtuple xs =>
                      simp only [validateData, decide_eq_true_eq] at hv
                      simp only [mapData, Except.ok.injEq,
                        Prod.mk.injEq] at hm
                      obtain ⟨hm1, hm2⟩ := hm
                      rw [← hm1, ← hm2] at hrc
                      simp only [typeVarFlag] at hrc
                      simp only [aggregateResults, strictFlag, if_true] at hagg
                      have houts := runChildren_all_true_outs
                        (fun c dd => validateF fuel c dd false)
                        (fun c dd b2 c' hpc hvc hb2 =>
                          ih c dd false b2 c' hpc hvc hb2)
                        ch xs ch2 results hmem hrc hagg
                      rw [← hv, List.take_length] at houts
                      simp only [reduceData, Except.ok.injEq] at hred
                      rw [← hred, houts]
                  | vint n0 => simp [validateData] at hv
                  | vstr s0 => simp [validateData] at hv
                  | vbool b0 => simp [validateData] at hv
                  | vnone => simp [validateData] at hv
                  | vlist xs => simp [validateData] at hv
                  | vtype c0 => simp [validateData] at hv
                  | vfunc h0 => simp [validateData] at hv

/-- Round-trip at the `Node.validate` level. -/
theorem validate_pristine_roundtrip {n : Node} {d : PyVal} {f : Bool}
    {b : Bool} {n' : Node} (hp : Pristine n)
    (h : Node.validate n d f = .ok (b, n')) (hb : b = true) :
    n'.dataOut = d :=
  validateF_pristine_roundtrip n.depth n d f b n' hp h hb

/-- C3 counterexample: a `TupleNode` over `Union[int, str]` validates `(5,)`
(output `(5,)`), then validates `("x",)` through the same instance.  The
second call returns true but the stored output is still `(5,)` — the union
child's `reduce_data` picks the stale non-`None` output `5` of the `int`
branch over the fresh `"x"` — so the round-trip 'output equals the original
elements' fails for a `TupleNode` in a reachable (non-fresh) state. -/
theorem c3_counterexample :
    Node.validate c3tuple (.vtuple [.vint 5]) false = .ok (true, c3mid) ∧
    Node.validate c3mid (.vtuple [.vstr "x"]) false = .ok (true, c3fin) ∧
    c3fin.dataOut = .vtuple [.vint 5] :=
  ⟨rfl, rfl, rfl⟩

/-- C3 amended: for every `TupleNode` with `n` children, `validate` returns
true only if the data is a tuple of length exactly `n` whose every element
validates against its positional child (one result per child, all true);
the stored output is then the tuple of the children's outputs in child
order, of length `n`; and when the node is in its freshly-built (or reset)
state, those outputs equal the original elements (round-trip) — with stale
child outputs from an earlier validation the round-trip can fail. -/
theorem c3_amended_tuple (dout : PyVal) (lt : Option PyClass)
    (oc ch : List Node) (d : PyVal) (force : Bool) (n' : Node)
    (h : Node.validate (.mk .tuple dout lt oc ch) d force = .ok (true, n')) :
    ∃ xs ch2 results,
      d = .vtuple xs ∧ xs.length = ch.length ∧
      runChildren (fun c dd => Node.validate c dd false) ch xs =
        .ok (ch2, results) ∧
      results.all id = true ∧ results.length = ch.length ∧
      n'.dataOut = .vtuple (ch2.map Node.dataOut) ∧
      (ch2.map Node.dataOut).length = ch.length ∧
      (Pristine (.mk .tuple dout lt oc ch) → n'.dataOut = d) := by
  have hround : Pristine (.mk .tuple dout lt oc ch) → n'.dataOut = d :=
    fun hp => validate_pristine_roundtrip hp h rfl
  rw [validate_eq_step] at h
  simp only [validateStep] at h
  split at h
  case isFalse => simp at h
  case isTrue hv =>
    cases d with
    | vtuple xs =>
        simp only [validateData, decide_eq_true_eq] at hv
        simp only [mapData, Except.bind_ok_left] at h
        rw [Except.bind_eq_ok] at h
        obtain ⟨⟨ch2, results⟩, hrc, h⟩ := h
        simp only [typeVarFlag] at hrc
        split at h
        case isFalse => simp at h
        case isTrue hagg =>
          simp only [reduceData, Except.bind_ok_left, Except.ok.injEq,
            Prod.mk.injEq] at h
          obtain ⟨_, hn⟩ := h
          simp only [aggregateResults, strictFlag, if_true] at hagg
          obtain ⟨hl1, hl2⟩ := runChildren_ok_length hrc
          refine ⟨xs, ch2, results, rfl, hv, hrc, hagg, hl2, ?_, ?_, hround⟩
          · rw [← hn]; rfl
          · rw [List.length_map]; exact hl1
    | vint n0 => simp [validateData] at hv
    | vstr s0 => simp [validateData] at hv
    | vbool b0 => simp [validateData] at hv
    | vnone => simp [validateData] at hv
    | vlist xs => simp [validateData] at hv
    | vtype c0 => simp [validateData] at hv
    | vfunc h0 => simp [validateData] at hv

/-- Witness for C3 amended: a pristine `TupleNode` over `(int, str)`
validating the tuple `(1, "a")`. -/
theorem c3_amended_tuple_witness :
    ∃ xs ch2 results,
      (PyVal.vtuple [.vint 1, .vstr "a"]) = .vtuple xs ∧
      xs.length = ([mkSimple .intC, mkSimple .strC] : List Node).length ∧
      runChildren (fun c dd => Node.validate c dd false)
        [mkSimple .intC, mkSimple .strC] xs = .ok (ch2, results) ∧
      results.all id = true ∧
      results.length = ([mkSimple .intC, mkSimple .strC] : List Node).length ∧
      (Node.mk .tuple (.vtuple [.vint 1, .vstr "a"]) (some .tupleC)
          [mkSimple .intC, mkSimple .strC]
          [.mk (.simple .intC) (.vint 1) (some .intC) [] [],
           .mk (.simple .strC) (.vstr "a") (some .strC) [] []]).dataOut =
        .vtuple (ch2.map Node.dataOut) ∧
      (ch2.map Node.dataOut).length =
        ([mkSimple .intC, mkSimple .strC] : List Node).length ∧
      (Pristine (.mk .tuple .vnone none [mkSimple .intC, mkSimple .strC]
          [mkSimple .intC, mkSimple .strC]) →
        (Node.mk .tuple (.vtuple [.vint 1, .vstr "a"]) (some .tupleC)
          [mkSimple .intC, mkSimple .strC]
          [.mk (.simple .intC) (.vint 1) (some .intC) [] [],
           .mk (.simple .strC) (.vstr "a") (some .strC) [] []]).dataOut =
          .vtuple [.vint 1, .vstr "a"]) :=
  c3_amended_tuple .vnone none [mkSimple .intC, mkSimple .strC]
    [mkSimple .intC, mkSimple .strC] (.vtuple [.vint 1, .vstr "a"]) false
    (.mk .tuple (.vtuple [.vint 1, .vstr "a"]) (some .tupleC)
      [mkSimple .intC, mkSimple .strC]
      [.mk (.simple .intC) (.vint 1) (some .intC) [] [],
       .mk (.simple .strC) (.vstr "a") (some .strC) [] []]) rfl

/-! ### Claim C2 -/

/-- `results.index(True)` is the first true position: within bounds, true
there, false strictly before. -/
theorem indexOfTrue_spec : ∀ {results : List Bool},
    results.any id = true →
    indexOfTrue results < results.length ∧
    results.get? (indexOfTrue results) = some true ∧
    ∀ j, j < indexOfTrue results → results.get? j = some false := by
  intro results
  induction results with
  | nil => intro h; simp at h
  | cons b bs ih =>
      intro h
      cases b with
      | true =>
          refine ⟨by simp [indexOfTrue], rfl, ?_⟩
          intro j hj
          simp [indexOfTrue] at hj
      | false =>
          simp only [List.any_cons, id, Bool.false_or] at h
          obtain ⟨h1, h2, h3⟩ := ih h
          refine ⟨?_, ?_, ?_⟩
          · simp only [indexOfTrue, List.length_cons]
            omega
          · simpa [indexOfTrue] using h2
          · intro j hj
            cases j with
            | zero => rfl
            | succ j =>
                simp only [indexOfTrue] at hj
                simpa using h3 j (by omega)

/-- A non-empty all-true list has a true element. -/
theorem any_of_all_ne_nil {results : List Bool} (hne : results ≠ [])
    (h : results.all id = true) : results.any id = true := by
  cases results with
  | nil => exact absurd rfl hne
  | cons b bs =>
      simp only [List.all_cons, Bool.and_eq_true, id] at h
      simp [h.1]

/-- C2 (confirmed): (1) whenever a `validate` call with `force = True`
reaches a successful aggregate and the child loop collected at least one
result, the call ends with `children` equal to the one-element list holding
the updated first child, in child order, whose recursive result was true;
(2) `validate` neither reads nor writes `original_children` — its outcome
and every field of the updated node other than `original_children` are
unchanged if `original_children` is replaced — so no `validate` call can
restore pruned-away children; (3) only `reset` copies `original_children`
back into `children`. -/
theorem c2_commit_prune :
    (∀ (n : Node) (d : PyVal) (n' : Node) (pd : List PyVal)
        (ch1 ch2 : List Node) (results : List Bool),
      Node.validate n d true = .ok (true, n') →
      mapData n.kind n.children d = .ok (pd, ch1) →
      runChildren (fun c dd => Node.validate c dd (typeVarFlag n.kind))
        ch1 pd = .ok (ch2, results) →
      results ≠ [] →
      ∃ c, results.get? (indexOfTrue results) = some true ∧
        (∀ j, j < indexOfTrue results → results.get? j = some false) ∧
        ch2.get? (indexOfTrue results) = some c ∧
        n'.children = [c]) ∧
    (∀ (n : Node) (o : List Node) (d : PyVal) (f : Bool),
      Node.validate (setOrig n o) d f =
        (Node.validate n d f).map (fun p => (p.1, setOrig p.2 o))) ∧
    (∀ n : Node, (Node.reset n).children = n.origChildren) := by
  refine ⟨?_, ?_, ?_⟩
  · intro n d n' pd ch1 ch2 results h hm hrc hne
    cases n with
    | mk k dout lt oc ch =>
        rw [validate_eq_step] at h
        simp only [validateStep] at h
        split at h
        case isFalse => simp at h
        case isTrue hv =>
          rw [Except.bind_eq_ok] at h
          obtain ⟨⟨pd', ch1'⟩, hm', h⟩ := h
          rw [show mapData k ch d = mapData (Node.mk k dout lt oc ch).kind
            (Node.mk k dout lt oc ch).children d from rfl, hm] at hm'
          simp only [Except.ok.injEq, Prod.mk.injEq] at hm'
          obtain ⟨hpd, hch1⟩ := hm'
          subst hpd; subst hch1
          rw [Except.bind_eq_ok] at h
          obtain ⟨⟨ch2', results'⟩, hrc', h⟩ := h
          rw [show (fun c dd => Node.validate c dd
              (typeVarFlag (Node.mk k dout lt oc ch).kind)) =
            (fun c dd => Node.validate c dd (typeVarFlag k)) from rfl] at hrc
          rw [hrc] at hrc'
          simp only [Except.ok.injEq, Prod.mk.injEq] at hrc'
          obtain ⟨hc2, hrs⟩ := hrc'
          subst hc2; subst hrs
          split at h
          case isFalse => simp at h
          case isTrue hagg =>
            rw [Except.bind_eq_ok] at h
            obtain ⟨out, hred, h⟩ := h
            simp only [Except.ok.injEq, Prod.mk.injEq] at h
            obtain ⟨_, hn⟩ := h
            have hany : results.any id = true := by
              rcases hs : strictFlag k with _ | _ <;>
                simp only [aggregateResults, hs, Bool.false_eq_true,
                  if_false, if_true] at hagg
              · exact hagg
              · exact any_of_all_ne_nil hne hagg
            obtain ⟨hlt, htrue, hbefore⟩ := indexOfTrue_spec hany
            have hlen : ch2.length = results.length :=
              (runChildren_ok_length hrc).1.trans
                (runChildren_ok_length hrc).2.symm
            rcases hget : ch2.get? (indexOfTrue results) with _ | c
            · exfalso
              rw [List.get?_eq_none] at hget
              omega
            · have hne2 : results.isEmpty = false := by
                cases results with
                | nil => exact absurd rfl hne
                | cons x xs => rfl
              refine ⟨c, htrue, hbefore, rfl, ?_⟩
              rw [← hn]
              show pruneChildren true results ch2 = [c]
              have hget2 : ch2[indexOfTrue results]? = some c := by
                rw [← List.get?_eq_getElem?]; exact hget
              simp [pruneChildren, hne2, hget2]
  · intro n o d f
    cases n with
    | mk k d0 l0 oc ch =>
        rw [validate_eq_step, validate_eq_step]
        show validateStep _ (.mk k d0 l0 o ch) d f =
          Except.map _ (validateStep _ (.mk k d0 l0 oc ch) d f)
        simp only [validateStep]
        rcases hvd : validateData k l0 ch d f with _ | _
        · simp [hvd, Except.map, setOrig]
        · simp only [hvd, if_true]
          rcases hm : mapData k ch d with e | ⟨pd, ch1⟩
          · simp [Except.bind_error_left, Except.map]
          · simp only [Except.bind_ok_left]
            rcases hrc : runChildren
                (fun c dd => Node.validate c dd (typeVarFlag k)) ch1 pd
              with e | ⟨ch2, results⟩
            · simp [Except.bind_error_left, Except.map]
            · simp only [Except.bind_ok_left]
              split
              · rcases hred : reduceData k (ch2.map Node.dataOut) d
                  with e | out
                · simp [Except.bind_error_left, Except.map]
                · simp [Except.bind_ok_left, Except.map, setOrig]
              · simp [Except.map, setOrig]
  · intro n
    cases n with
    | mk k d l oc ch => rfl

/-- Witness for C2: `Union[int, str]` validating `5` with `force = True`
prunes `children` to the `int` branch (the first child with a true result);
replacing `original_children` does not change a `validate` outcome; `reset`
restores `children` from `original_children`. -/
theorem c2_commit_prune_witness :
    (∃ c, ([true, false] : List Bool).get? (indexOfTrue [true, false]) =
        some true ∧
      (∀ j, j < indexOfTrue [true, false] →
        ([true, false] : List Bool).get? j = some false) ∧
      ([.mk (.simple .intC) (.vint 5) (some .intC) [] [],
        mkSimple .strC] : List Node).get? (indexOfTrue [true, false]) =
        some c ∧
      c2after.children = [c]) ∧
    Node.validate (setOrig (mkSimple .intC) [mkTuple]) (.vint 1) false =
      (Node.validate (mkSimple .intC) (.vint 1) false).map
        (fun p => (p.1, setOrig p.2 [mkTuple])) ∧
    (Node.reset (c1union .intC .strC)).children =
      (c1union .intC .strC).origChildren :=
  ⟨c2_commit_prune.1 (c1union .intC .strC) (.vint 5) c2after
      [.vint 5, .vint 5] [mkSimple .intC, mkSimple .strC]
      [.mk (.simple .intC) (.vint 5) (some .intC) [] [], mkSimple .strC]
      [true, false] rfl rfl rfl (by decide),
   c2_commit_prune.2.1 (mkSimple .intC) [mkTuple] (.vint 1) false,
   c2_commit_prune.2.2 (c1union .intC .strC)⟩

/-! ### Claim C5 -/

theorem map_listMul {α β : Type} (f : α → β) (l : List α) :
    ∀ m, (listMul l m).map f = listMul (l.map f) m
  | 0 => rfl
  | m + 1 => by simp [listMul, map_listMul f l m]

theorem listMul_add {α : Type} (l : List α) (a b : Nat) :
    listMul l (a + b) = listMul l a ++ listMul l b := by
  induction a with
  | zero => simp [listMul]
  | succ a ih =>
      have h : a + 1 + b = (a + b) + 1 := by omega
      rw [h]
      simp [listMul, ih, List.append_assoc]

theorem listMul_listMul {α : Type} (l : List α) (j m : Nat) :
    listMul (listMul l j) m = listMul l (j * m) := by
  induction m with
  | zero => simp [Nat.mul_zero, listMul]
  | succ m ih =>
      have h : listMul l (j * (m + 1)) = listMul l j ++ listMul l (j * m) := by
        rw [show j * (m + 1) = j + j * m from by rw [Nat.mul_succ]; omega]
        exact listMul_add l j (j * m)
      rw [h]
      simp [listMul, ih]

theorem sublist_listMul {α : Type} {a b : List α} (h : List.Sublist a b) :
    ∀ m, List.Sublist (listMul a m) (listMul b m)
  | 0 => by simp [listMul]
  | m + 1 => by
      simp only [listMul]
      exact List.Sublist.append h (sublist_listMul h m)

theorem NodeInvList_mem : ∀ {l : List Node}, NodeInvList l →
    ∀ {c : Node}, c ∈ l → NodeInv c := by
  intro l
  induction l with
  | nil => intro _ c hc; simp at hc
  | cons a as ih =>
      intro hi c hc
      rcases List.mem_cons.mp hc with hc | hc
      · subst hc; exact hi.1
      · exact ih hi.2 hc

theorem NodeInvList_of_forall : ∀ {l : List Node},
    (∀ c ∈ l, NodeInv c) → NodeInvList l := by
  intro l
  induction l with
  | nil => intro _; trivial
  | cons a as ih =>
      intro h
      exact ⟨h a (List.mem_cons_self a as),
        ih (fun c hc => h c (List.mem_cons_of_mem a hc))⟩

/-- A pristine node satisfies the invariant. -/
theorem pristine_nodeInv_fuel : ∀ (m : Nat) (n : Node), n.depth ≤ m →
    Pristine n → NodeInv n := by
  intro m
  induction m with
  | zero =>
      intro n hd _
      cases n with
      | mk k d l oc ch => simp [Node.depth] at hd
  | succ m ih =>
      intro n hd hp
      cases n with
      | mk k d l oc ch =>
          have hp' : d = .vnone ∧ l = none ∧ ch = oc ∧ PristineList oc := hp
          obtain ⟨_, _, hco, hpl⟩ := hp'
          subst hco
          have hdm : Node.depthList ch ≤ m := by simpa [Node.depth] using hd
          refine ⟨⟨1, ?_⟩, ?_, hpl⟩
          · simp [listMul]
          · exact NodeInvList_of_forall (fun c hc =>
              ih c (le_trans (depth_le_of_mem hc) hdm)
                (PristineList_mem hpl hc))

theorem pristine_nodeInv {n : Node} (hp : Pristine n) : NodeInv n :=
  pristine_nodeInv_fuel n.depth n le_rfl hp

/-- `map_data` preserves the invariant facts about the children list. -/
theorem mapData_nodeInv {k : NodeKind} {ch : List Node} {d : PyVal}
    {pd : List PyVal} {ch1 : List Node} {T : List NodeKind}
    (hsub : ∃ j, List.Sublist (ch.map Node.kind) (listMul T j))
    (hinv : ∀ c ∈ ch, NodeInv c)
    (hm : mapData k ch d = .ok (pd, ch1)) :
    (∃ j, List.Sublist (ch1.map Node.kind) (listMul T j)) ∧
    ∀ c ∈ ch1, NodeInv c := by
  refine ⟨?_, fun c hc => hinv c (mem_mapData_children hm hc)⟩
  obtain ⟨j, hj⟩ := hsub
  cases k with
  | simple dt =>
      cases d <;>
        simp only [mapData, Except.ok.injEq, Prod.mk.injEq] at hm <;>
        rw [← hm.2]
      case vlist xs =>
        refine ⟨j * xs.length, ?_⟩
        rw [map_listMul]
        have h2 := sublist_listMul hj xs.length
        rwa [listMul_listMul] at h2
      all_goals exact ⟨j, hj⟩
  | union =>
      simp only [mapData, Except.ok.injEq, Prod.mk.injEq] at hm
      rw [← hm.2]; exact ⟨j, hj⟩
  | typeVar =>
      simp only [mapData, Except.ok.injEq, Prod.mk.injEq] at hm
      rw [← hm.2]; exact ⟨j, hj⟩
  | tuple =>
      cases d <;>
        simp only [mapData, Except.ok.injEq, Prod.mk.injEq] at hm <;>
        rw [← hm.2] <;> exact ⟨j, hj⟩
  | callable =>
      rcases hl : (PyVal.hintsOf d).lookup "return" with _ | r
      · simp [mapData, hl] at hm
      · simp only [mapData, hl, Except.ok.injEq, Prod.mk.injEq] at hm
        rw [← hm.2]; exact ⟨j, hj⟩

/-- Whatever the prune step keeps was already among the children. -/
theorem pruneChildren_sub (f : Bool) (results : List Bool)
    (ch2 : List Node) : ∀ c ∈ pruneChildren f results ch2, c ∈ ch2 := by
  intro c hc
  simp only [pruneChildren] at hc
  split at hc
  · rcases hg : ch2.get? (indexOfTrue results) with _ | c2 <;> rw [hg] at hc
    · simp at hc
    · simp only [List.mem_singleton] at hc
      subst hc
      exact List.get?_mem hg
  · exact hc

/-- The prune step only selects from the children list: its variant tags
form a sublist of the children's variant tags. -/
theorem pruneChildren_tags_sublist (f : Bool) (results : List Bool)
    (ch2 : List Node) :
    List.Sublist ((pruneChildren f results ch2).map Node.kind)
      (ch2.map Node.kind) := by
  simp only [pruneChildren]
  split
  · rcases hg : ch2.get? (indexOfTrue results) with _ | c
    · simp
    · show List.Sublist ([c].map Node.kind) (ch2.map Node.kind)
      simp only [List.map_cons, List.map_nil]
      exact List.singleton_sublist.mpr
        (List.mem_map_of_mem Node.kind (List.get?_mem hg))
  · exact List.Sublist.refl _

/-- The child loop preserves the variant tags of the children list and the
invariant of each child. -/
theorem runChildren_nodeInv
    (vf : Node → PyVal → Except PyErr (Bool × Node))
    (hvf : ∀ c d b c', vf c d = .ok (b, c') →
      c'.kind = c.kind ∧ (NodeInv c → NodeInv c')) :
    ∀ (l : List Node) (pd : List PyVal) (cs : List Node) (bs : List Bool),
    runChildren vf l pd = .ok (cs, bs) → (∀ c ∈ l, NodeInv c) →
    cs.map Node.kind = l.map Node.kind ∧ ∀ c ∈ cs, NodeInv c := by
  intro l
  induction l with
  | nil =>
      intro pd cs bs h _
      cases pd <;>
        simp only [runChildren, Except.ok.injEq, Prod.mk.injEq] at h <;>
        rw [← h.1] <;> exact ⟨rfl, by simp⟩
  | cons c l ih =>
      intro pd cs bs h hinv
      cases pd with
      | nil => simp [runChildren] at h
      | cons d ds =>
          simp only [runChildren] at h
          rcases hv : vf c d with e | ⟨b, c'⟩ <;> rw [hv] at h
          · simp at h
          · rcases hr : runChildren vf l ds with e | ⟨cs', bs'⟩ <;>
              rw [hr] at h
            · simp at h
            · simp only [Except.ok.injEq, Prod.mk.injEq] at h
              rw [← h.1]
              obtain ⟨hk, hi⟩ := hvf c d b c' hv
              obtain ⟨hk2, hi2⟩ := ih ds cs' bs' hr
                (fun x hx => hinv x (List.mem_cons_of_mem c hx))
              refine ⟨by simp [hk, hk2], ?_⟩
              intro x hx
              rcases List.mem_cons.mp hx with hx | hx
              · subst hx; exact hi (hinv c (List.mem_cons_self c l))
              · exact hi2 x hx

/-- `validate` preserves the C5 invariant. -/
theorem validateF_nodeInv : ∀ (fuel : Nat) (n : Node) (d : PyVal)
    (f : Bool) (b : Bool) (n' : Node), NodeInv n →
    validateF fuel n d f = .ok (b, n') → NodeInv n' := by
  intro fuel
  induction fuel with
  | zero => intro n d f b n' _ h; simp [validateF] at h
  | succ fuel ih =>
      intro n d f b n' hi h
      cases n with
      | mk k dout lt oc ch =>
          have hi' : (∃ j, List.Sublist (ch.map Node.kind)
              (listMul (oc.map Node.kind) j)) ∧
              NodeInvList ch ∧ PristineList oc := hi
          obtain ⟨hsub, hil, hpl⟩ := hi'
          simp only [validateF, validateStep] at h
          split at h
          case isFalse =>
            simp only [Except.ok.injEq, Prod.mk.injEq] at h
            rw [← h.2]
            exact ⟨hsub, hil, hpl⟩
          case isTrue hv =>
            rw [Except.bind_eq_ok] at h
            obtain ⟨⟨pd, ch1⟩, hm, h⟩ := h
            rw [Except.bind_eq_ok] at h
            obtain ⟨⟨ch2, results⟩, hrc, h⟩ := h
            obtain ⟨hsub1, hinv1⟩ := mapData_nodeInv hsub
              (fun c hc => NodeInvList_mem hil hc) hm
            obtain ⟨htags, hinv2⟩ := runChildren_nodeInv
              (fun c dd => validateF fuel c dd (typeVarFlag k))
              (fun c dd b2 c' hvc =>
                ⟨(validateF_ok_inv hvc).1,
                 fun hic => ih c dd (typeVarFlag k) b2 c' hic hvc⟩)
              ch1 pd ch2 results hrc hinv1
            have hsub2 : ∃ j, List.Sublist (ch2.map Node.kind)
                (listMul (oc.map Node.kind) j) := by
              obtain ⟨j, hj⟩ := hsub1
              exact ⟨j, by rw [htags]; exact hj⟩
            split at h
            case isTrue hagg =>
              rw [Except.bind_eq_ok] at h
              obtain ⟨out, hred, h⟩ := h
              simp only [Except.ok.injEq, Prod.mk.injEq] at h
              rw [← h.2]
              obtain ⟨j, hj⟩ := hsub2
              refine ⟨⟨j, List.Sublist.trans
                  (pruneChildren_tags_sublist f results ch2) hj⟩, ?_, hpl⟩
              exact NodeInvList_of_forall (fun c hc =>
                hinv2 c (pruneChildren_sub f results ch2 c hc))
            case isFalse =>
              simp only [Except.ok.injEq, Prod.mk.injEq] at h
              rw [← h.2]
              exact ⟨hsub2, NodeInvList_of_forall hinv2, hpl⟩

/-- `validate` preserves the C5 invariant (driver level). -/
theorem validate_nodeInv {n : Node} {d : PyVal} {f : Bool} {b : Bool}
    {n' : Node} (hi : NodeInv n) (h : Node.validate n d f = .ok (b, n')) :
    NodeInv n' :=
  validateF_nodeInv n.depth n d f b n' hi h

/-- `reset` preserves the C5 invariant. -/
theorem reset_nodeInv {n : Node} (hi : NodeInv n) : NodeInv n.reset := by
  cases n with
  | mk k d l oc ch =>
      have hi' : (∃ j, List.Sublist (ch.map Node.kind)
          (listMul (oc.map Node.kind) j)) ∧
          NodeInvList ch ∧ PristineList oc := hi
      obtain ⟨_, _, hpl⟩ := hi'
      refine ⟨⟨1, by simp [listMul]⟩, ?_, hpl⟩
      exact NodeInvList_of_forall (fun c hc =>
        pristine_nodeInv (PristineList_mem hpl hc))

/-- C5 counterexample: after a `SimpleNode(list)` with one template child
validates `[1, 2]`, its `children` list has two elements against a
one-element `original_children` — it is not a subsequence of the template,
neither as node values nor at the level of variant tags, refuting the
claimed invariant. -/
theorem c5_counterexample :
    Node.validate c7node (.vlist [.vint 1, .vint 2]) false =
      .ok (true, c5after) ∧
    ¬ List.Sublist c5after.children c5after.origChildren ∧
    ¬ List.Sublist (c5after.children.map Node.kind)
        (c5after.origChildren.map Node.kind) :=
  ⟨rfl,
   fun h => absurd h.length_le (by decide),
   fun h => absurd h.length_le (by decide)⟩

/-- C5 amended: starting from a freshly-built tree, after any sequence of
completed `validate` calls and `reset` calls every node satisfies
`NodeInv`: the variant tags of its `children` are a subsequence of a finite
concatenation of copies of the variant tags of its `original_children`
(in original order; the repetition is exactly the `SimpleNode` sequence
expansion), recursively in the tree; the same holds for the intermediate
children list right after the decompose (`map_data`) step. -/
theorem c5_amended_invariant (a n : Node) (hp : Pristine a)
    (hr : Reach a n) :
    NodeInv n ∧
    (∃ j, List.Sublist (n.children.map Node.kind)
      (listMul (n.origChildren.map Node.kind) j)) ∧
    (∀ (d : PyVal) (pd : List PyVal) (ch1 : List Node),
      mapData n.kind n.children d = .ok (pd, ch1) →
      ∃ j, List.Sublist (ch1.map Node.kind)
        (listMul (n.origChildren.map Node.kind) j)) := by
  have hinv : NodeInv n := by
    induction hr with
    | refl => exact pristine_nodeInv hp
    | validated m m' d f b hrm hv ih => exact validate_nodeInv ih hv
    | wasReset m hrm ih => exact reset_nodeInv ih
  refine ⟨hinv, ?_, ?_⟩
  · cases n with
    | mk k d l oc ch => exact hinv.1
  · intro d pd ch1 hm
    cases n with
    | mk k d0 l0 oc ch =>
        have hinv' : (∃ j, List.Sublist (ch.map Node.kind)
            (listMul (oc.map Node.kind) j)) ∧
            NodeInvList ch ∧ PristineList oc := hinv
        exact (mapData_nodeInv hinv'.1
          (fun c hc => NodeInvList_mem hinv'.2.1 hc) hm).1

/-- Witness for C5 amended: the pristine `Union[int, str]` tree with
reflexive reachability. -/
theorem c5_amended_invariant_witness :
    NodeInv (c1union .intC .strC) ∧
    (∃ j, List.Sublist ((c1union .intC .strC).children.map Node.kind)
      (listMul ((c1union .intC .strC).origChildren.map Node.kind) j)) ∧
    (∀ (d : PyVal) (pd : List PyVal) (ch1 : List Node),
      mapData (c1union .intC .strC).kind (c1union .intC .strC).children d =
        .ok (pd, ch1) →
      ∃ j, List.Sublist (ch1.map Node.kind)
        (listMul ((c1union .intC .strC).origChildren.map Node.kind) j)) :=
  c5_amended_invariant (c1union .intC .strC) (c1union .intC .strC)
    ⟨rfl, rfl, rfl, ⟨rfl, rfl, rfl, trivial⟩, ⟨rfl, rfl, rfl, trivial⟩,
      trivial⟩
    (Reach.refl _)
